import Mathlib

/-!
# Hephaestus: the script store, key generation and panic recovery

A shallow embedding of the Go sources

* `internal/data/kv_store.go`   (`kvStore`: engine plus radix index),
* `internal/biz/lua_store.go`   (`LuaManager`),
* `internal/service/service.go` (`HephaestusService`, the worker bodies),
* `internal/lua/bytecode.go`, `internal/lua/vm_pool.go` (panic recovery, the
  execution of bytecode, the VM pool),
* `internal/lua/types.go`, `internal/lua/service.go` (`goType`, `luaType`, the
  invocation context),
* `internal/service/type_conversion.go` (`Any`, `AsAny`),
* `internal/lua/decimal.go`, `internal/lua/timestamp.go` (the builtins of the
  decimal, time and duration types),

followed by the theorems that settle the specification claims about them.

Conventions.  A Go `string` / `[]byte` is a list of bytes, each byte a natural
number.  A Go result pair `(x, err)` is a pair whose error component is an
`Option Err` (`none` is the `nil` error).  The embedded engine (pebble) and the
radix tree (go-adaptive-radix-tree) are libraries: the engine is a finite map
given as an association list, the tree is the list of its keys in the order in
which `ForEachPrefix` visits them.  Errors that the engine may report besides
"not found" are supplied by a per-call record `DbFaults`.
-/

namespace Hephaestus

/-! ## Data model -/

/-- A key: the bytes of a Go string. -/
abbrev Key := List Nat

/-- A value: a Go byte slice. -/
abbrev Bytes := List Nat

/-- The bytes of a string literal made of ASCII characters. -/
def ofString (s : String) : List Nat := s.toList.map Char.toNat

/-- Error values that cross the modelled functions. -/
inductive Err where
  /-- The engine's `pebble.ErrNotFound`. -/
  | notFound
  /-- The store's `biz.ErrMultiplePairsFound`. -/
  | multiplePairsFound
  /-- Any other error reported by the engine. -/
  | engine (code : Nat)
  /-- An error of `uuid.NewUUID`. -/
  | uuid (code : Nat)
  /-- A parse, compile, encode or run-time error of the script library. -/
  | lua (code : Nat)
  /-- The service error `v1.ErrorScriptNotFound`. -/
  | scriptNotFound
  /-- The service error `v1.ErrorInvalidParam`. -/
  | invalidParam
  /-- A Go run-time error (`runtime.Error`), the value of a run-time panic. -/
  | runtime (code : Nat)
  deriving DecidableEq, Repr

/-! ## The engine (pebble) as a finite map -/

/-- The engine's contents: an association list, first binding wins. -/
abbrev DB := List (Key × Bytes)

/-- Finite-map lookup. -/
def dbLookup : DB → Key → Option Bytes
  | [], _ => none
  | (k', v) :: rest, k => if k' = k then some v else dbLookup rest k

/-- Finite-map upsert. -/
def dbPut : DB → Key → Bytes → DB
  | [], k, v => [(k, v)]
  | (k', v') :: rest, k, v =>
    if k' = k then (k, v) :: rest else (k', v') :: dbPut rest k v

/-- Finite-map removal. -/
def dbErase : DB → Key → DB
  | [], _ => []
  | (k', v) :: rest, k => if k' = k then dbErase rest k else (k', v) :: dbErase rest k

/-- Errors, other than "not found", that the engine reports during one call of
a store operation: on its read (`db.Get`), on closing the read handle
(`closer.Close`) and on its write (`db.Set` / `db.Delete`). -/
structure DbFaults where
  get : Option Nat
  close : Option Nat
  write : Option Nat
  deriving DecidableEq, Repr

/-- The engine answering every call without an error of its own. -/
def noFaults : DbFaults := ⟨none, none, none⟩

/-- The call `db.Get(key)`: the value, or `ErrNotFound`, or the injected error. -/
def pebbleGet (db : DB) (key : Key) (f : DbFaults) : Except Err Bytes :=
  match f.get with
  | some c => .error (.engine c)
  | none =>
    match dbLookup db key with
    | some v => .ok v
    | none => .error .notFound

/-- The call `closer.Close()` on the handle returned by `db.Get`. -/
def closerClose (f : DbFaults) : Option Err := f.close.map Err.engine

/-- The call `db.Set(key, value, writeOpts)`; a failed write applies nothing. -/
def pebbleSet (db : DB) (key : Key) (value : Bytes) (f : DbFaults) : DB × Option Err :=
  match f.write with
  | some c => (db, some (.engine c))
  | none => (dbPut db key value, none)

/-- The call `db.Delete(key, writeOpts)`; deleting an absent key succeeds. -/
def pebbleDelete (db : DB) (key : Key) (f : DbFaults) : DB × Option Err :=
  match f.write with
  | some c => (db, some (.engine c))
  | none => (dbErase db key, none)

/-! ## The radix index (adaptive radix tree) as an ordered key list -/

/-- Byte-wise lexicographic order, `bytes.Compare a b < 0`. -/
def keyLt : Key → Key → Bool
  | [], [] => false
  | [], _ :: _ => true
  | _ :: _, [] => false
  | a :: as, b :: bs => if a < b then true else if b < a then false else keyLt as bs

/-- The call `art.Insert(key, struct{}{})`: the key takes its place in the
order; a key already present is kept once. -/
def artInsert : List Key → Key → List Key
  | [], k => [k]
  | x :: xs, k =>
    if k = x then x :: xs
    else if keyLt k x then k :: x :: xs
    else x :: artInsert xs k

/-- The call `art.Delete(key)`: the key leaves the tree.  The library's
deletion returns at once, leaving the tree as it is, when the key is empty
(`len(key) == 0`), although `Insert` accepts the empty key. -/
def artDelete (t : List Key) (k : Key) : List Key :=
  if k = [] then t else t.filter (fun x => x ≠ k)

/-- The call `art.ForEachPrefix(p, cb)`: the callback runs on every key that
starts with `p`, in ascending order, until it answers `false`.  The callback's
captured variables are the state `σ`. -/
def ForEachPrefix {σ : Type} (p : Key) (cb : σ → Key → σ × Bool) : List Key → σ → σ
  | [], s => s
  | k :: ks, s =>
    if p.isPrefixOf k then
      let r := cb s k
      if r.2 then ForEachPrefix p cb ks r.1 else r.1
    else ForEachPrefix p cb ks s

/-! ## `kvStore` (internal/data/kv_store.go) -/

/-- The store: the engine `db` and the radix index `art`. -/
structure kvStore where
  db : DB
  art : List Key
  deriving DecidableEq, Repr

/-- Lines 61-65 of `kvStore.Get`: the engine read and the closing of its handle. -/
def engineGet (db : DB) (bytesKey : Key) (f : DbFaults) : Option Bytes × Option Err :=
  match pebbleGet db bytesKey f with
  | .error e => (none, some e)
  | .ok v => (some v, closerClose f)

/-- The method `kvStore.Get`. -/
def kvStore.Get (k : kvStore) (key : Key) (f : DbFaults) : Option Bytes × Option Err :=
  if key.length < 32 then
    -- the callback's captured variables `(bytesKey, count)`
    let st := ForEachPrefix key
      (fun (st : Key × Nat) node => ((node, st.2 + 1), decide (st.2 + 1 < 2)))
      k.art (key, 0)
    if st.2 ≥ 2 then (none, some .multiplePairsFound)
    else engineGet k.db st.1 f
  else engineGet k.db key f

/-- The method `kvStore.HasKeyPrefix`. -/
def kvStore.HasKeyPrefix (k : kvStore) (pfx : Key) (f : DbFaults) : Key × Bool :=
  if pfx.length < 32 then
    -- the callback's captured variables `(key, exist)`, initially `("", false)`
    ForEachPrefix pfx (fun (_ : Key × Bool) node => ((node, true), !true)) k.art ([], false)
  else
    match (k.Get pfx f).2 with
    | none => (pfx, true)
    | some _ => (pfx, false)

/-- The method `kvStore.KeysWithPrefix`. -/
def kvStore.KeysWithPrefix (k : kvStore) (pfx : Key) : List Key :=
  ForEachPrefix pfx (fun (keys : List Key) node => (keys ++ [node], true)) k.art []

/-- The method `kvStore.Set`: the new store and the returned error. -/
def kvStore.Set (k : kvStore) (key : Key) (value : Bytes) (f : DbFaults) :
    kvStore × Option Err :=
  let art1 :=
    match pebbleGet k.db key f with
    | .ok _ => k.art  -- an error of `closer.Close()` is only logged
    | .error e => if e = .notFound then artInsert k.art key else k.art
  let w := pebbleSet k.db key value f
  (⟨w.1, art1⟩, w.2)

/-- Lines 94-100 of `kvStore.Delete`: the index is purged when the engine read
finds the key, then the engine delete is issued. -/
def deleteAt (k : kvStore) (bytesKey : Key) (f : DbFaults) : kvStore × Option Err :=
  let art1 :=
    match pebbleGet k.db bytesKey f with
    | .ok _ => artDelete k.art bytesKey  -- an error of `closer.Close()` is only logged
    | .error _ => k.art
  let w := pebbleDelete k.db bytesKey f
  (⟨w.1, art1⟩, w.2)

/-- The method `kvStore.Delete`: the new store and the returned error. -/
def kvStore.Delete (k : kvStore) (key : Key) (f : DbFaults) : kvStore × Option Err :=
  if key.length < 32 then
    -- the callback's captured variables `(bytesKey, count)`
    let st := ForEachPrefix key
      (fun (st : Key × Nat) node => ((node, st.2 + 1), decide (st.2 + 1 < 2)))
      k.art (key, 0)
    if st.2 ≥ 2 then (k, some .multiplePairsFound)
    else deleteAt k st.1 f
  else deleteAt k key f

/-- The empty store. -/
def kvStore.empty : kvStore := ⟨[], []⟩

/-! ## Key generation (internal/biz/lua_store.go, `LuaManager.NewKey`) -/

/-- A `uuid.UUID`: sixteen bytes. -/
structure UUID where
  bytes : List Nat
  size : bytes.length = 16

/-- The table `"0123456789abcdef"` of `encoding/hex`. -/
def hextable : List Nat := ofString "0123456789abcdef"

/-- The function `hex.Encode`: two table entries per byte, `v >> 4` and `v & 0x0f`. -/
def hexEncode : List Nat → List Nat
  | [] => []
  | v :: rest =>
    hextable.getD ((v % 256) / 16) 0 :: hextable.getD (v % 16) 0 :: hexEncode rest

/-- The byte `'-'`. -/
def dash : Nat := 45

/-- The method `UUID.String` (`encodeHex`): the groups `uuid[:4]`, `uuid[4:6]`,
`uuid[6:8]`, `uuid[8:10]`, `uuid[10:]` in hexadecimal, separated by `'-'`. -/
def UUID.String (u : UUID) : List Nat :=
  hexEncode (u.bytes.take 4) ++ [dash] ++
  hexEncode ((u.bytes.drop 4).take 2) ++ [dash] ++
  hexEncode ((u.bytes.drop 6).take 2) ++ [dash] ++
  hexEncode ((u.bytes.drop 8).take 2) ++ [dash] ++
  hexEncode (u.bytes.drop 10)

/-- The call `strings.ReplaceAll(s, old, new)` for a one-byte `old`. -/
def ReplaceAll (s : List Nat) (old : Nat) (new : List Nat) : List Nat :=
  s.flatMap (fun c => if c = old then new else [c])

/-- The `for { select { ... } }` loop of `NewKey` (lines 41-50).  `gen n` is the
result of the `n`-th call of `uuid.NewUUID` (counted from 0), `done i` tells
whether `ctx.Done()` is ready at pass `i` of the loop, `err` is the named
result.  A ready `ctx.Done()` is taken before `default`.  In `default` the
`break` after a successful call ends the `select` statement only, so the loop
goes on to its next pass; the loop is left by `return "", err` alone.  The
result is `none` when the loop has not returned within `fuel` passes. -/
def NewKey.retry (gen : Nat → Except Err UUID) (done : Nat → Bool) :
    Nat → Nat → Option Err → Option (Key × Option Err)
  | 0, _, _ => none
  | fuel + 1, i, err =>
    if done i then some ([], err)
    else
      match gen (i + 1) with
      | .ok _ => NewKey.retry gen done fuel (i + 1) none
      | .error e => NewKey.retry gen done fuel (i + 1) (some e)

/-- The method `LuaManager.NewKey`: `(str, err)`, or `none` when it has not
returned within `fuel` passes of its loop. -/
def LuaManager.NewKey (gen : Nat → Except Err UUID) (done : Nat → Bool) (fuel : Nat) :
    Option (Key × Option Err) :=
  match gen 0 with
  | .ok uid => some (ReplaceAll uid.String dash [], none)
  | .error e => NewKey.retry gen done fuel 0 (some e)

/-! ## Panic recovery (internal/lua/bytecode.go, internal/lua/vm_pool.go) -/

/-- The value carried by a Go panic: an `error`, or a value of another type. -/
inductive PanicValue where
  | error (e : Err)
  | other (text : String)
  deriving DecidableEq, Repr

/-- The outcome of a call that may panic. -/
inductive Outcome (α : Type) where
  | ret (a : α)
  | panic (v : PanicValue)

/-- The statement `err, _ = e.(error)` of the deferred handlers: the asserted
error, or the zero value `nil` when the panic value is not an `error`. -/
def recoverErr : PanicValue → Option Err
  | .error e => some e
  | .other _ => none

/-- The library calls made by `Compile`: `parse.Parse`, `lua.Compile` and the
gob encoding of the prototype. -/
structure LuaLib (Stmts Proto : Type) where
  parse : String → Outcome (Except Err Stmts)
  compile : Stmts → Outcome (Except Err Proto)
  encode : Proto → Outcome (Except Err Bytes)

/-- The library's `parse.Parse` (gopher-lua, `parse/lexer.go`): it runs the
generated parser `yyParse` over the reader under a deferred handler of its own,
`err, _ = e.(error)`, with `chunk` still `nil`.  A panic raised while parsing,
a syntax error included, never leaves it: it returns `(nil, err)` when the
panic value is an `error`, and `(nil, nil)` when it is not. -/
def parse.Parse {Stmt : Type} (yyParse : String → Outcome (List Stmt)) (src : String) :
    Outcome (Except Err (List Stmt)) :=
  match yyParse src with
  | .ret stmts => .ret (.ok stmts)
  | .panic v =>
    match recoverErr v with
    | some e => .ret (.error e)
    | none => .ret (.ok [])

/-- The function `Compile`: `(b, err)`.  When a call panics the named results
still hold `nil` and the deferred handler assigns `err`. -/
def Compile {Stmts Proto : Type} (lib : LuaLib Stmts Proto) (src : String) :
    Option Bytes × Option Err :=
  match lib.parse src with
  | .panic v => (none, recoverErr v)
  | .ret (.error e) => (none, some e)
  | .ret (.ok stmts) =>
    match lib.compile stmts with
    | .panic v => (none, recoverErr v)
    | .ret (.error e) => (none, some e)
    | .ret (.ok proto) =>
      match lib.encode proto with
      | .panic v => (none, recoverErr v)
      | .ret (.error e) => (none, some e)
      | .ret (.ok b) => (some b, none)

/-- The function `CompileString`. -/
def CompileString {Stmts Proto : Type} (lib : LuaLib Stmts Proto) (s : String) :
    Option Bytes × Option Err :=
  Compile lib s

/-- The method `vmPool.RunString`: `(ret, e)`.  `doString str args` is the call
`vm.DoString(str)` on a VM whose invocation context holds `args`: it returns
the error of the run together with the `Ret` list left in the invocation
context, or panics.  When it panics `ret` is still `nil` and the deferred
handler assigns `e`. -/
def vmPool.RunString {V : Type}
    (doString : String → List V → Outcome (Option Err × Option (List V)))
    (str : String) (args : List V) : Option (List V) × Option Err :=
  match doString str args with
  | .panic v => (none, recoverErr v)
  | .ret r => (r.2, r.1)

/-! ## `LuaManager` and the service workers -/

/-- The method `LuaManager.Set`: compile, then store under `key` as given. -/
def LuaManager.Set {Stmts Proto : Type} (lib : LuaLib Stmts Proto) (m : kvStore)
    (key : Key) (script : String) (f : DbFaults) : kvStore × Option Err :=
  let c := CompileString lib script
  match c.2 with
  | some e => (m, some e)
  | none => m.Set key (c.1.getD []) f

/-- The method `LuaManager.Exists`. -/
def LuaManager.Exists (m : kvStore) (pfx : Key) (f : DbFaults) : Key × Bool :=
  m.HasKeyPrefix pfx f

/-- The method `LuaManager.Remove`. -/
def LuaManager.Remove (m : kvStore) (key : Key) (f : DbFaults) : kvStore × Option Err :=
  m.Delete key f

/-- The worker of `HephaestusService.AddScript`: the new store, the returned
id and the error; `none` when `NewKey` does not return within `fuel`. -/
def HephaestusService.AddScript {Stmts Proto : Type} (lib : LuaLib Stmts Proto)
    (gen : Nat → Except Err UUID) (done : Nat → Bool) (fuel : Nat)
    (s : kvStore) (script : String) (f : DbFaults) :
    Option (kvStore × Option Key × Option Err) :=
  match LuaManager.NewKey gen done fuel with
  | none => none
  | some (_, some e) => some (s, none, some e)
  | some (key, none) =>
    match LuaManager.Set lib s key script f with
    | (s1, some e) => some (s1, none, some e)
    | (s1, none) => some (s1, some key, none)

/-- The worker of `HephaestusService.UpdateScript`.  `validate` is the request
validation `c.Validate()`; `f1` and `f2` are the engine faults during `Exists`
and during `Set`.  The full key that `Exists` returns is dropped and `Set`
receives the id of the request. -/
def HephaestusService.UpdateScript {Stmts Proto : Type} (lib : LuaLib Stmts Proto)
    (validate : Key → Bool) (s : kvStore) (id : Key) (script : String)
    (f1 f2 : DbFaults) : kvStore × Option Err :=
  if !validate id then (s, some .invalidParam)
  else if !(LuaManager.Exists s id f1).2 then (s, some .scriptNotFound)
  else LuaManager.Set lib s id script f2

/-- The worker of `HephaestusService.DeleteScript`. -/
def HephaestusService.DeleteScript (validate : Key → Bool) (s : kvStore) (id : Key)
    (f1 f2 : DbFaults) : kvStore × Option Err :=
  if !validate id then (s, some .invalidParam)
  else if !(LuaManager.Exists s id f1).2 then (s, some .scriptNotFound)
  else LuaManager.Remove s id f2

/-! ## Host values, script values and wire envelopes -/

/-- A `float32` / `float64` value: a finite value by its exact rational value, or
NaN, or an infinity. -/
inductive F64 where
  | finite (q : ℚ)
  | nan
  | inf (negative : Bool)
  deriving DecidableEq

/-- The Go conversion `int64(x)` of a float: the fraction is dropped; where the
result does not fit, Go leaves the result to the implementation and the value
taken here is the one of amd64. -/
def F64.toInt64 : F64 → Int
  | .finite q =>
    let t : Int := if 0 ≤ q then ⌊q⌋ else ⌈q⌉
    if -2 ^ 63 ≤ t ∧ t < 2 ^ 63 then t else -2 ^ 63
  | .nan => -2 ^ 63
  | .inf _ => -2 ^ 63

/-- The Go conversion `int32(v)` of an integer: the low 32 bits, signed. -/
def wrapInt32 (n : Int) : Int := (n + 2 ^ 31) % 2 ^ 32 - 2 ^ 31

/-- The Go conversion `uint32(v)` of an integer: the low 32 bits. -/
def wrapUInt32 (n : Int) : Int := n % 2 ^ 32

/-- A Go `interface{}` value handled by the conversions: the dynamic type is
the constructor. -/
inductive HostValue where
  /-- The `nil` interface. -/
  | null
  | bool (b : Bool)
  | str (s : String)
  | int (n : Int)
  | int8 (n : Int)
  | int16 (n : Int)
  | int32 (n : Int)
  | int64 (n : Int)
  | uint (n : Int)
  | uint8 (n : Int)
  | uint16 (n : Int)
  | uint32 (n : Int)
  | uint64 (n : Int)
  | float32 (x : F64)
  | float64 (x : F64)
  /-- A `[]byte`. -/
  | bytes (b : List Nat)
  /-- A `map[string]interface{}`: its entries, one per key. -/
  | map (entries : List (String × HostValue))
  /-- A value of any other Go type. -/
  | other (typeName : String)

/-- The assignment `m[k] = v` on a Go map kept as a list with one entry per key. -/
def mapSet (m : List (String × HostValue)) (k : String) (v : HostValue) :
    List (String × HostValue) :=
  match m with
  | [] => [(k, v)]
  | (k', v') :: rest => if k' = k then (k, v) :: rest else (k', v') :: mapSet rest k v

/-- A script value (`lua.LValue`). -/
inductive LValue where
  | lnil
  | lbool (b : Bool)
  | lnumber (x : F64)
  | lstring (s : String)
  /-- A function; `repr` is what its `String()` prints. -/
  | lfunction (repr : String)
  /-- A user-data: `meta` is `none` when its metatable is not a table, and
  otherwise the text of the metatable field `@type`; `payload` names the Go
  value it wraps. -/
  | luserdata (meta : Option String) (payload : Nat)
  | lthread
  | lchannel
  /-- A table: its entries in the order of `ForEach`. -/
  | ltable (entries : List (LValue × LValue))

/-- A `structpb.Value`. -/
inductive PbValue where
  | null
  | number (x : F64)
  | str (s : String)
  | bool (b : Bool)
  | struct (fields : List (String × PbValue))
  | list (items : List PbValue)

/-- The message type named by the `TypeUrl` of an envelope. -/
inductive TypeUrl where
  | stringValue | int32Value | boolValue | floatValue | doubleValue | int64Value
  | uint32Value | uint64Value | bytesValue | struct | value
  | unknown (name : String)
  deriving DecidableEq

/-- A protobuf message that an envelope can carry. -/
inductive Msg where
  | stringValue (s : String)
  | int32Value (n : Int)
  | boolValue (b : Bool)
  | floatValue (x : F64)
  | doubleValue (x : F64)
  | int64Value (n : Int)
  | uint32Value (n : Int)
  | uint64Value (n : Int)
  | bytesValue (b : List Nat)
  | struct (fields : List (String × PbValue))
  | value (v : PbValue)
  | unknown (name : String)

/-- The type URL of a message. -/
def Msg.typeUrl : Msg → TypeUrl
  | .stringValue _ => .stringValue
  | .int32Value _ => .int32Value
  | .boolValue _ => .boolValue
  | .floatValue _ => .floatValue
  | .doubleValue _ => .doubleValue
  | .int64Value _ => .int64Value
  | .uint32Value _ => .uint32Value
  | .uint64Value _ => .uint64Value
  | .bytesValue _ => .bytesValue
  | .struct _ => .struct
  | .value _ => .value
  | .unknown name => .unknown name

/-- An envelope `*anypb.Any`: a type URL with bytes that decode to a message of
that type, or with bytes on which `UnmarshalTo` fails with `e`. -/
inductive AnyPb where
  | msg (m : Msg)
  | corrupt (url : TypeUrl) (e : Err)

/-- The call `anypb.New(m)`. -/
def anypbNew (m : Msg) : AnyPb := .msg m

/-! ## Wire conversion (internal/service/type_conversion.go) -/

/-- The function `Any`: `(msg, err)`.  In the struct case the map `m` handed to
`structpb.NewStruct` is returned; `UnmarshalTo` fills `structVal`, not `m`. -/
def Any : AnyPb → HostValue × Option Err
  | .msg (.stringValue s) => (.str s, none)
  | .msg (.int32Value n) => (.int32 n, none)
  | .msg (.boolValue b) => (.bool b, none)
  | .msg (.floatValue x) => (.float32 x, none)
  | .msg (.doubleValue x) => (.float64 x, none)
  | .msg (.int64Value n) => (.int64 n, none)
  | .msg (.uint32Value n) => (.uint32 n, none)
  | .msg (.uint64Value n) => (.uint64 n, none)
  | .msg (.struct _) => (.map [], none)
  | .msg (.bytesValue _) => (.null, some .invalidParam)
  | .msg (.value _) => (.null, some .invalidParam)
  | .msg (.unknown _) => (.null, some .invalidParam)
  | .corrupt .bytesValue _ => (.null, some .invalidParam)
  | .corrupt .value _ => (.null, some .invalidParam)
  | .corrupt (.unknown _) _ => (.null, some .invalidParam)
  | .corrupt _ e => (.null, some e)

/-- The function `AsAny`: `(msg, err)`, by the dynamic type of the argument. -/
def AsAny : HostValue → Option AnyPb × Option Err
  | .int n => (some (anypbNew (.int32Value (wrapInt32 n))), none)
  | .int8 n => (some (anypbNew (.int32Value n)), none)
  | .int16 n => (some (anypbNew (.int32Value n)), none)
  | .int32 n => (some (anypbNew (.int32Value n)), none)
  | .uint n => (some (anypbNew (.uint32Value (wrapUInt32 n))), none)
  | .uint8 n => (some (anypbNew (.uint32Value n)), none)
  | .uint16 n => (some (anypbNew (.uint32Value n)), none)
  | .uint32 n => (some (anypbNew (.uint32Value n)), none)
  | .int64 n => (some (anypbNew (.int64Value n)), none)
  | .uint64 n => (some (anypbNew (.uint64Value n)), none)
  | .bool b => (some (anypbNew (.boolValue b)), none)
  | .str s => (some (anypbNew (.stringValue s)), none)
  | .float32 x => (some (anypbNew (.floatValue x)), none)
  | .float64 x => (some (anypbNew (.doubleValue x)), none)
  | .bytes b => (some (anypbNew (.bytesValue b)), none)
  | .null => (some (anypbNew (.value .null)), none)
  | .map _ => (some (anypbNew (.value .null)), none)
  | .other _ => (some (anypbNew (.value .null)), none)

/-- The function `ConvertFromProto`: `(args, err)`; the loop stops at the first
envelope that `Any` refuses, with the arguments converted so far. -/
def ConvertFromProto : List AnyPb → List HostValue → List HostValue × Option Err
  | [], acc => (acc, none)
  | a :: rest, acc =>
    match Any a with
    | (_, some e) => (acc, some e)
    | (v, none) => ConvertFromProto rest (acc ++ [v])

/-- The function `ConvertArgsToProto`: `(retVal.Args, err)`; every message that
`AsAny` returns without an error is appended. -/
def ConvertArgsToProto :
    List HostValue → List (Option AnyPb) → Option (List (Option AnyPb)) × Option Err
  | [], acc => (some acc, none)
  | arg :: rest, acc =>
    match AsAny arg with
    | (_, some e) => (none, some e)
    | (m, none) => ConvertArgsToProto rest (acc ++ [m])

/-! ## Script values and the invocation context (internal/lua) -/

/-- The run-time error of a failed type assertion `value.(T)`. -/
def typeAssertionError : Err := .runtime 1

/-- The run-time error of a nil pointer dereference. -/
def nilDereference : Err := .runtime 2

/-- The function `luaType`.  In the numeric case the value is asserted to be a
`float64`; the assertion panics on every other dynamic type. -/
def luaType : HostValue → Outcome LValue
  | .float64 x => .ret (.lnumber x)
  | .float32 _ => .panic (.error typeAssertionError)
  | .int _ => .panic (.error typeAssertionError)
  | .uint _ => .panic (.error typeAssertionError)
  | .uint8 _ => .panic (.error typeAssertionError)
  | .uint16 _ => .panic (.error typeAssertionError)
  | .uint32 _ => .panic (.error typeAssertionError)
  | .uint64 _ => .panic (.error typeAssertionError)
  | .int8 _ => .panic (.error typeAssertionError)
  | .int16 _ => .panic (.error typeAssertionError)
  | .int32 _ => .panic (.error typeAssertionError)
  | .int64 _ => .panic (.error typeAssertionError)
  | .str s => .ret (.lstring s)
  | .bool b => .ret (.lbool b)
  | .null => .ret .lnil
  | .bytes _ => .ret .lnil
  | .map _ => .ret .lnil
  | .other _ => .ret .lnil

/-- What the conversions take from their surroundings: the registry `types`
(`types tag` is `FromLuaUserData` of the descriptor registered under `tag`) and
the text `String()` of a script value that is not a string. -/
structure HostLib where
  types : String → Option (Nat → HostValue)
  toStr : LValue → String

/-- The text `key.String()` of a table key. -/
def keyString (h : HostLib) : LValue → String
  | .lstring s => s
  | k => h.toStr k

mutual
/-- The function `goType`.  A user-data whose metatable is not a table makes
`tbl.RawGetString` dereference nil. -/
def goType (h : HostLib) : LValue → Outcome HostValue
  | .lnumber x => .ret (.int64 x.toInt64)
  | .lbool b => .ret (.bool b)
  | .lstring s => .ret (.str s)
  | .luserdata none _ => .panic (.error nilDereference)
  | .luserdata (some tag) payload =>
    match h.types tag with
    | none => .ret .null
    | some fromUserData => .ret (fromUserData payload)
  | .lfunction repr => .ret (.str repr)
  | .lchannel => .ret .null
  | .lnil => .ret .null
  | .lthread => .ret .null
  | .ltable es =>
    match goTypeEntries h es [] with
    | .ret m => .ret (.map m)
    | .panic v => .panic v
/-- The `ForEach` loop of the table case of `goType`: `ret[key.String()] =
goType(value)` for every entry. -/
def goTypeEntries (h : HostLib) :
    List (LValue × LValue) → List (String × HostValue) → Outcome (List (String × HostValue))
  | [], acc => .ret acc
  | (k, v) :: rest, acc =>
    match goType h v with
    | .ret x => goTypeEntries h rest (mapSet acc (keyString h k) x)
    | .panic p => .panic p
end

/-- A VM handle `*lua.LState`: `none` is the nil pointer, `some n` the state
made by the `n`-th call of `lua.NewState`. -/
abbrev VM := Option Nat

/-- The struct `GlobalThis`. -/
structure GlobalThis where
  Args : List HostValue
  Ret : List HostValue

/-- The map `globalThese`: at most one entry per VM; an entry may hold the nil
pointer. -/
abbrev These := List (VM × Option GlobalThis)

/-- The call `globalThese.Load(key)`. -/
def theseLoad : These → VM → Option (Option GlobalThis)
  | [], _ => none
  | (k, g) :: rest, key => if k = key then some g else theseLoad rest key

/-- The function `storeGlobalThis`. -/
def storeGlobalThis : These → VM → Option GlobalThis → These
  | [], key, val => [(key, val)]
  | (k, g) :: rest, key, val =>
    if k = key then (key, val) :: rest else (k, g) :: storeGlobalThis rest key val

/-- The function `deleteGlobalThis`. -/
def deleteGlobalThis : These → VM → These
  | [], _ => []
  | (k, g) :: rest, key =>
    if k = key then deleteGlobalThis rest key else (k, g) :: deleteGlobalThis rest key

/-- The function `loadGlobalThis`: the pointer stored for the VM, nil when
there is no entry. -/
def loadGlobalThis (t : These) (key : VM) : Option GlobalThis :=
  match theseLoad t key with
  | some g => g
  | none => none

/-- The loop of the builtin `this.returns`: `goType` of every argument, in order. -/
def goTypeArgs (h : HostLib) : List LValue → List HostValue → Outcome (List HostValue)
  | [], acc => .ret acc
  | v :: rest, acc =>
    match goType h v with
    | .ret x => goTypeArgs h rest (acc ++ [x])
    | .panic p => .panic p

/-- The builtin `this.returns` called on VM `L` with `args`: the converted
arguments become the `Ret` of the invocation context of `L` (a fresh context
when none is stored). -/
def thisReturns (h : HostLib) (t : These) (L : VM) (args : List LValue) : Outcome These :=
  match goTypeArgs h args [] with
  | .panic p => .panic p
  | .ret ret =>
    let t1 :=
      match theseLoad t L with
      | some (some _) => t
      | _ => storeGlobalThis t L (some ⟨[], []⟩)
    match loadGlobalThis t1 L with
    | some g => .ret (storeGlobalThis t1 L (some ⟨g.Args, ret⟩))
    | none => .panic (.error nilDereference)

/-- What a run of a script did, as far as the host sees it: the argument lists
of its calls of `this.returns` in order, the values its top-level function
returned, and the error of the run. -/
structure ScriptRun where
  calls : List (List LValue)
  raw : List LValue
  err : Option Err

/-- The effect of the calls of `this.returns` of a run on `globalThese`; a call
in which `goType` panics raises an error inside the script and stores nothing. -/
def applyCalls (h : HostLib) (L : VM) : List (List LValue) → These → These
  | [], t => t
  | c :: rest, t =>
    match thisReturns h t L c with
    | .ret t1 => applyCalls h L rest t1
    | .panic _ => applyCalls h L rest t

/-- What the execution of bytecode takes from its libraries: the conversions'
surroundings, the gob decoding of a prototype and the protected call of the
function made from it, as a function of the arguments in the invocation context. -/
structure RunLib (Proto : Type) where
  host : HostLib
  decode : Bytes → Except Err Proto
  pcall : Proto → List HostValue → Outcome ScriptRun

/-- The part of the process state outside a pool: the map `globalThese`, the
identities of the VMs that have been closed, and the identity of the next VM
that `lua.NewState` makes. -/
structure World where
  these : These
  closed : List Nat
  fresh : Nat

/-- The function `RunBytecode`: the new state and `(returns, err)`.  The VM
comes from `defaultPool.New()`; the deferred calls delete its invocation
context, close it and recover a panic. -/
def RunBytecode {Proto : Type} (lib : RunLib Proto) (w : World) (b : Bytes)
    (args : List HostValue) : World × List HostValue × Option Err :=
  match lib.decode b with
  | .error e => (w, [], some e)
  | .ok proto =>
    let vm : VM := some w.fresh
    let t1 := storeGlobalThis w.these vm (some ⟨args, []⟩)
    match lib.pcall proto args with
    | .panic v =>
      (⟨deleteGlobalThis t1 vm, w.fresh :: w.closed, w.fresh + 1⟩, [], recoverErr v)
    | .ret run =>
      let t2 := applyCalls lib.host vm run.calls t1
      let w2 : World := ⟨deleteGlobalThis t2 vm, w.fresh :: w.closed, w.fresh + 1⟩
      match run.err with
      | some e => (w2, [], some e)
      | none =>
        match loadGlobalThis t2 vm with
        | some g => (w2, g.Ret, none)
        | none => (w2, [], some nilDereference)

/-- The function `RunBytecodeFromByteArray`. -/
def RunBytecodeFromByteArray {Proto : Type} (lib : RunLib Proto) (w : World) (b : Bytes)
    (args : List HostValue) : World × List HostValue × Option Err :=
  RunBytecode lib w b args

/-- The method `LuaManager.Execute`. -/
def LuaManager.Execute {Proto : Type} (lib : RunLib Proto) (m : kvStore) (w : World)
    (key : Key) (args : List HostValue) (f : DbFaults) :
    World × List HostValue × Option Err :=
  match m.Get key f with
  | (_, some e) => (w, [], some e)
  | (byteCode, none) => RunBytecodeFromByteArray lib w (byteCode.getD []) args

/-- The worker of `HephaestusService.ExecuteScript`: the new state, the
returned values and the error.  `validate` is `req.Validate()`; `f1` and `f2`
are the engine faults during `Exists` and during `Execute`. -/
def HephaestusService.ExecuteScript {Proto : Type} (lib : RunLib Proto)
    (validate : Key → List AnyPb → Bool) (s : kvStore) (w : World) (id : Key)
    (args : List AnyPb) (f1 f2 : DbFaults) :
    World × Option (List (Option AnyPb)) × Option Err :=
  if !validate id args then (w, none, some .invalidParam)
  else if !(LuaManager.Exists s id f1).2 then (w, none, some .scriptNotFound)
  else
    match ConvertFromProto args [] with
    | (_, some e) => (w, none, some e)
    | (a, none) =>
      match LuaManager.Execute lib s w id a f2 with
      | (w1, _, some e) => (w1, none, some e)
      | (w1, ret, none) =>
        let r := ConvertArgsToProto ret []
        (w1, r.1, r.2)

/-! ## The VM pool (internal/lua/vm_pool.go) -/

/-- The struct `vmPool`, as far as its counters and its idle list go. -/
structure vmPool where
  saved : List VM
  limit : Int
  waiting : Int
  running : Int
  deriving DecidableEq

/-- The function `NewVMPool`. -/
def NewVMPool : vmPool := ⟨[], 256, 0, 0⟩

/-- The method `vmPool.New`: a VM made by `lua.NewState`. -/
def vmPool.New (w : World) : VM × World := (some w.fresh, ⟨w.these, w.closed, w.fresh + 1⟩)

/-- The method `vmPool.Put`: the new pool, and whether a waiter is signalled
on `chanWait`. -/
def vmPool.Put (p : vmPool) (vm : VM) : vmPool × Bool :=
  if p.waiting > 0 then (⟨p.saved ++ [vm], p.limit, p.waiting - 1, p.running - 1⟩, true)
  else (⟨p.saved ++ [vm], p.limit, p.waiting, p.running - 1⟩, false)

/-- What a call of `vmPool.Get` does first: it suspends on `chanWait`, having
incremented `waiting`, or it returns a VM at once. -/
inductive GetResult where
  | waits (p : vmPool)
  | got (vm : VM) (p : vmPool) (w : World)

/-- The method `vmPool.Get`, up to its return or to its suspension. -/
def vmPool.Get (p : vmPool) (w : World) : GetResult :=
  let count := p.saved.length
  let overall := (count : Int) + p.running
  if overall ≥ p.limit then .waits ⟨p.saved, p.limit, p.waiting + 1, p.running⟩
  else if count = 0 then
    let r := vmPool.New w
    .got r.1 ⟨p.saved, p.limit, p.waiting, p.running + 1⟩ r.2
  else
    .got (p.saved.getD (count - 1) none)
      ⟨p.saved.take (count - 1), p.limit, p.waiting, p.running + 1⟩ w

/-- The loop of `vmPool.Shutdown`: `vm.Close()` on every idle VM; closing the
nil pointer dereferences it. -/
def shutdownLoop : List VM → List Nat → Outcome (List Nat)
  | [], closed => .ret closed
  | none :: _, _ => .panic (.error nilDereference)
  | some n :: rest, closed => shutdownLoop rest (n :: closed)

/-- The method `vmPool.Shutdown`.  The builtin `clear` sets every element of
the slice `saved` to nil and keeps its length. -/
def vmPool.Shutdown (p : vmPool) (w : World) : Outcome (vmPool × World) :=
  match shutdownLoop p.saved w.closed with
  | .panic v => .panic v
  | .ret closed =>
    .ret (⟨p.saved.map (fun _ => none), p.limit, p.waiting, p.running⟩,
      ⟨w.these, closed, w.fresh⟩)

/-- A run of `vmPool.RunString` on the pool and the process state: the VM it
used, the state when the deferred `p.Put(vm)` has returned, the state when
`RunString` returns, and the results `(ret, e)`. -/
structure RunStringRun where
  vm : VM
  afterPut : vmPool × World
  final : vmPool × World
  ret : List HostValue
  e : Option Err

/-- The method `vmPool.RunString` with the pool and `globalThese` as state;
`none` when `Get` suspends.  The deferred calls run in the reverse order of
their registration: first `p.Put(vm)`, then the handler that stores nil for the
VM and recovers a panic.  `doString str args` is the call `vm.DoString(str)`. -/
def vmPool.RunStringOn (h : HostLib) (doString : String → List HostValue → Outcome ScriptRun)
    (p : vmPool) (w : World) (str : String) (args : List HostValue) :
    Option RunStringRun :=
  match p.Get w with
  | .waits _ => none
  | .got vm p1 w1 =>
    let t1 := storeGlobalThis w1.these vm (some ⟨args, []⟩)
    -- `e = vm.DoString(str)` and `ret = loadGlobalThis(vm).Ret`
    let body : These × List HostValue × Option Err × Option PanicValue :=
      match vm with
      | none => (t1, [], none, some (.error nilDereference))
      | some _ =>
        match doString str args with
        | .panic v => (t1, [], none, some v)
        | .ret run =>
          let t2 := applyCalls h vm run.calls t1
          match loadGlobalThis t2 vm with
          | some g => (t2, g.Ret, run.err, none)
          | none => (t2, [], run.err, some (.error nilDereference))
    let p2 := (p1.Put vm).1
    let e :=
      match body.2.2.2 with
      | some v => recoverErr v
      | none => body.2.2.1
    some ⟨vm, (p2, ⟨body.1, w1.closed, w1.fresh⟩),
      (p2, ⟨storeGlobalThis body.1 vm none, w1.closed, w1.fresh⟩), body.2.1, e⟩

/-! ## The builtins `this.argc` and `this.argv` (internal/lua/types.go) -/

/-- The error raised by `L.ArgError`. -/
def argError : Err := .lua 1

/-- The error raised by `L.TypeError`, as by a failed `L.CheckInt`. -/
def typeError : Err := .lua 2

/-- The call `L.CheckInt(i)` on the argument at place `i`: `int(v)` of a
number, a raised type error otherwise. -/
def CheckInt : LValue → Outcome Int
  | .lnumber x => .ret x.toInt64
  | _ => .panic (.error typeError)

/-- The builtin `this.argc`: the values it returns to the script. -/
def thisArgc (g : Option GlobalThis) : Outcome (List LValue) :=
  match g with
  | none => .panic (.error nilDereference)
  | some this => .ret [.lnumber (.finite (this.Args.length : ℚ))]

/-- The loop of `this.argv` over its parameters: for each `pos` within
`[1, argc]` the value `luaType(this.Args[pos-1])` is pushed on the stack; any
other `pos` raises an argument error. -/
def argvPush (args : List HostValue) : List LValue → List LValue → Outcome (List LValue)
  | [], stack => .ret stack
  | p :: rest, stack =>
    match CheckInt p with
    | .panic v => .panic v
    | .ret pos =>
      if 1 ≤ pos ∧ pos ≤ (args.length : Int) then
        match luaType (args.getD (pos - 1).toNat .null) with
        | .ret v => argvPush args rest (stack ++ [v])
        | .panic v => .panic v
      else .panic (.error argError)

/-- The loop of `this.argv` without parameters: `luaType` of every input is
pushed on the stack. -/
def argvAll : List HostValue → List LValue → Outcome (List LValue)
  | [], stack => .ret stack
  | v :: rest, stack =>
    match luaType v with
    | .ret x => argvAll rest (stack ++ [x])
    | .panic p => .panic p

/-- What a Go function that returns `n` hands to the script: the top `n`
values of its stack. -/
def topValues (stack : List LValue) (n : Nat) : List LValue :=
  stack.drop (stack.length - n)

/-- The builtin `this.argv` called with `params`: the values it returns to the
script.  The stack holds the parameters when the function starts. -/
def thisArgv (g : Option GlobalThis) (params : List LValue) : Outcome (List LValue) :=
  match g with
  | none => .panic (.error nilDereference)
  | some this =>
    if params.length > 0 then
      match argvPush this.Args params params with
      | .ret stack => .ret (topValues stack params.length)
      | .panic v => .panic v
    else
      match argvAll this.Args params with
      | .ret stack => .ret (topValues stack this.Args.length)
      | .panic v => .panic v

/-! ## `ScriptIdByPrefix` and `FindScript` -/

/-- The run-time error of a slice expression out of range. -/
def sliceBoundsError : Err := .runtime 3

/-- The method `LuaManager.ScriptIdByPrefix`: `keys[:limit]` after `limit` has
been lowered to `len(keys)`; a negative `limit` makes the slice expression panic. -/
def LuaManager.ScriptIdByPrefix (m : kvStore) (pfx : Key) (limit : Int) :
    Outcome (List Key) :=
  let keys := m.KeysWithPrefix pfx
  let limit1 := if limit > (keys.length : Int) then (keys.length : Int) else limit
  if limit1 < 0 then .panic (.error sliceBoundsError)
  else .ret (keys.take limit1.toNat)

/-- The worker of `HephaestusService.FindScript`: the ids of the response.
`pfx` and `limit` are the optional fields of the request. -/
def HephaestusService.FindScript (s : kvStore) (pfx : Option Key) (limit : Option Int) :
    Outcome (List Key) :=
  let pfx1 := match pfx with
    | some q => q
    | none => []
  let limit1 := match limit with
    | some l => l
    | none => 10
  LuaManager.ScriptIdByPrefix s pfx1 limit1

/-! ## Host types: decimals, timestamps and durations -/

/-- A `decimal.Decimal` of the decimal library: the number `value * 10 ^ exp`. -/
structure Decimal where
  value : Int
  exp : Int
  deriving DecidableEq, Repr

/-- The function `decimal.NewFromInt`. -/
def Decimal.NewFromInt (n : Int) : Decimal := ⟨n, 0⟩

/-- The method `Decimal.Add`: both operands are rescaled to the smaller
exponent and the coefficients are added. -/
def Decimal.Add (a b : Decimal) : Decimal :=
  let e := min a.exp b.exp
  ⟨a.value * 10 ^ (a.exp - e).toNat + b.value * 10 ^ (b.exp - e).toNat, e⟩

/-- Trailing zeros removed. -/
def trimZeros (l : List Char) : List Char := (l.reverse.dropWhile (fun c => c = '0')).reverse

/-- The method `Decimal.String`: the digits of the coefficient with the point
set by the exponent, trailing zeros after the point dropped. -/
def Decimal.String (d : Decimal) : String :=
  if 0 ≤ d.exp then
    let digits := Nat.toDigits 10 (d.value.natAbs * 10 ^ d.exp.toNat)
    String.mk (if d.value < 0 then '-' :: digits else digits)
  else
    let str := Nat.toDigits 10 d.value.natAbs
    let k := (-d.exp).toNat
    let intPart := if str.length > k then str.take (str.length - k) else ['0']
    let frac :=
      if str.length > k then str.drop (str.length - k)
      else List.replicate (k - str.length) '0' ++ str
    let frac1 := trimZeros frac
    let number := if frac1.length > 0 then intPart ++ ['.'] ++ frac1 else intPart
    String.mk (if d.value < 0 then '-' :: number else number)

/-- A `time.Time`: an instant, in nanoseconds since the Unix epoch. -/
structure Time where
  ns : Int
  deriving DecidableEq, Repr

/-- The least `time.Duration`, an `int64` count of nanoseconds. -/
def minDuration : Int := -2 ^ 63

/-- The greatest `time.Duration`. -/
def maxDuration : Int := 2 ^ 63 - 1

/-- The Go conversion to `int64` of an integer: the low 64 bits, signed. -/
def wrapInt64 (n : Int) : Int := (n + 2 ^ 63) % 2 ^ 64 - 2 ^ 63

/-- The method `Time.Add`. -/
def Time.Add (t : Time) (d : Int) : Time := ⟨t.ns + d⟩

/-- The method `Time.Sub`: the difference, or the least or greatest duration
when the difference does not fit a duration. -/
def Time.Sub (t u : Time) : Int :=
  let d := t.ns - u.ns
  if d < minDuration then minDuration
  else if d > maxDuration then maxDuration
  else d

/-- The function `time.UnixMilli`. -/
def UnixMilli (msec : Int) : Time := ⟨msec * 1000000⟩

/-- The Go value that a user-data wraps, as far as the host types tell it apart. -/
inductive UserValue where
  | decimal (d : Decimal)
  | time (t : Time)
  | duration (d : Int)
  | other

/-- What the host types take from their libraries: the parsers
`decimal.NewFromString`, `time.Parse` (layout, value) and `time.ParseDuration`,
and the rounding methods of a decimal. -/
structure TypeLib where
  parseDecimal : String → Except Err Decimal
  parseTime : String → String → Except Err Time
  parseDuration : String → Except Err Int
  round : Decimal → Int → Decimal
  roundFloor : Decimal → Int → Decimal
  roundCeil : Decimal → Int → Decimal
  floor : Decimal → Decimal
  ceil : Decimal → Decimal

/-- What a builtin of a host type pushes as its result. -/
inductive Pushed where
  /-- A new user-data with the decimal metatable. -/
  | decimal (d : Decimal)
  /-- A new user-data with the time metatable. -/
  | time (t : Time)
  /-- A new user-data with the duration metatable. -/
  | duration (d : Int)
  /-- A script value. -/
  | value (v : LValue)
  /-- The given user-data, its metatable set to the decimal one. -/
  | same (v : LValue)

/-! ## Decimal builtins (internal/lua/decimal.go) -/

/-- The function `checkDecimal` on the argument at place `n`. -/
def checkDecimal (heap : Nat → UserValue) : LValue → Outcome Decimal
  | .luserdata _ p =>
    match heap p with
    | .decimal d => .ret d
    | _ => .panic (.error argError)
  | _ => .panic (.error typeError)

/-- The function `checkAnyDecimalLike` on the argument at place `n`. -/
def checkAnyDecimalLike (lib : TypeLib) (heap : Nat → UserValue) : LValue → Outcome Decimal
  | .lnumber x => .ret (Decimal.NewFromInt x.toInt64)
  | .lstring s =>
    match lib.parseDecimal s with
    | .ok d => .ret d
    | .error _ => .panic (.error argError)
  | .luserdata m p => checkDecimal heap (.luserdata m p)
  | _ => .panic (.error argError)

/-- The loop of `performDecimalOp` over the arguments from the second on. -/
def decimalFold (lib : TypeLib) (heap : Nat → UserValue) (op : Decimal → Decimal → Decimal) :
    Decimal → List LValue → Outcome Decimal
  | acc, [] => .ret acc
  | acc, a :: rest =>
    match checkAnyDecimalLike lib heap a with
    | .ret d => decimalFold lib heap op (op acc d) rest
    | .panic v => .panic v

/-- The function `performDecimalOp` called with the arguments `args`. -/
def performDecimalOp (lib : TypeLib) (heap : Nat → UserValue)
    (op : Decimal → Decimal → Decimal) (args : List LValue) : Outcome Pushed :=
  match args with
  | a :: b :: rest =>
    match checkAnyDecimalLike lib heap a with
    | .panic v => .panic v
    | .ret d =>
      match decimalFold lib heap op d (b :: rest) with
      | .ret r => .ret (.decimal r)
      | .panic v => .panic v
  | [.luserdata m p] => .ret (.same (.luserdata m p))
  | _ => .panic (.error typeError)

/-- The metamethod `__add` of the decimal type. -/
def decimalAdd (lib : TypeLib) (heap : Nat → UserValue) (args : List LValue) : Outcome Pushed :=
  performDecimalOp lib heap Decimal.Add args

/-- The function `performDecimalRoundingOp` called with the arguments `args`:
with exactly two arguments the operation on the decimal and `int32(precision)`,
and nil otherwise. -/
def performDecimalRoundingOp (heap : Nat → UserValue)
    (op : Decimal → Int → Decimal) (args : List LValue) : Outcome Pushed :=
  match args with
  | [a, b] =>
    match checkDecimal heap a with
    | .panic v => .panic v
    | .ret d =>
      match b with
      | .lnumber x => .ret (.decimal (op d (wrapInt32 x.toInt64)))
      | _ => .panic (.error typeError)
  | _ => .ret (.value .lnil)

/-- The method `round` of a decimal. -/
def decimalRound (lib : TypeLib) (heap : Nat → UserValue) (args : List LValue) :
    Outcome Pushed :=
  performDecimalRoundingOp heap lib.round args

/-- The method `floor` of a decimal. -/
def decimalFloor (lib : TypeLib) (heap : Nat → UserValue) (args : List LValue) :
    Outcome Pushed :=
  match args with
  | [a] =>
    match checkDecimal heap a with
    | .ret d => .ret (.decimal (lib.floor d))
    | .panic v => .panic v
  | [_, _] => performDecimalRoundingOp heap lib.roundFloor args
  | _ => .ret (.value .lnil)

/-- The method `ceil` of a decimal. -/
def decimalCeil (lib : TypeLib) (heap : Nat → UserValue) (args : List LValue) :
    Outcome Pushed :=
  match args with
  | [a] =>
    match checkDecimal heap a with
    | .ret d => .ret (.decimal (lib.ceil d))
    | .panic v => .panic v
  | [_, _] => performDecimalRoundingOp heap lib.roundCeil args
  | _ => .ret (.value .lnil)

/-- The method `string` of a decimal. -/
def decimalString (heap : Nat → UserValue) (args : List LValue) : Outcome Pushed :=
  match checkDecimal heap (args.headD .lnil) with
  | .ret d => .ret (.value (.lstring d.String))
  | .panic v => .panic v

/-- The loop of `decimal.new` over its arguments. -/
def decimalNewLoop (lib : TypeLib) (heap : Nat → UserValue) :
    List LValue → List Pushed → Outcome (List Pushed)
  | [], acc => .ret acc
  | a :: rest, acc =>
    match checkAnyDecimalLike lib heap a with
    | .ret d => decimalNewLoop lib heap rest (acc ++ [.decimal d])
    | .panic v => .panic v

/-- The function `decimal.new`: one decimal for each argument, or the decimal 0. -/
def decimalNew (lib : TypeLib) (heap : Nat → UserValue) (args : List LValue) :
    Outcome (List Pushed) :=
  if args.length ≥ 1 then decimalNewLoop lib heap args []
  else .ret [.decimal (Decimal.NewFromInt 0)]

/-! ## Timestamp and duration builtins (internal/lua/timestamp.go) -/

/-- The layout `time.RFC3339`. -/
def RFC3339 : String := "2006-01-02T15:04:05Z07:00"

/-- The variable `layouts`: `time.DateTime`, `time.UnixDate`, `time.RFC1123`,
`time.RFC822`, `time.RFC850`. -/
def layouts : List String :=
  ["2006-01-02 15:04:05", "Mon Jan _2 15:04:05 MST 2006", "Mon, 02 Jan 2006 15:04:05 MST",
   "02 Jan 06 15:04 MST", "Monday, 02-Jan-06 15:04:05 MST"]

/-- The loop of `checkAnyTimeLike` over `layouts`: the first layout that
parses the string ends it; `r` is the result of the last parse. -/
def parseLayouts (lib : TypeLib) (s : String) : List String → Except Err Time → Except Err Time
  | [], r => r
  | l :: rest, _ =>
    match lib.parseTime l s with
    | .ok t => .ok t
    | .error e => parseLayouts lib s rest (.error e)

/-- The function `checkTime` on the argument at place `n`: the pointer held by
the user-data, nil when it holds no time. -/
def checkTime (heap : Nat → UserValue) : LValue → Outcome (Option Time)
  | .luserdata _ p =>
    match heap p with
    | .time t => .ret (some t)
    | _ => .ret none
  | _ => .panic (.error typeError)

/-- The function `checkAnyTimeLike` on the argument at place `n`. -/
def checkAnyTimeLike (lib : TypeLib) (heap : Nat → UserValue) : LValue → Outcome (Option Time)
  | .lnumber x => .ret (some (UnixMilli x.toInt64))
  | .lstring s =>
    let r : Except Err Time :=
      match lib.parseTime RFC3339 s with
      | .ok t => .ok t
      | .error e => parseLayouts lib s layouts (.error e)
    match r with
    | .ok t => .ret (some t)
    | .error _ => .panic (.error argError)
  | .lnil => .ret (some ⟨0⟩)
  | .luserdata m p => checkTime heap (.luserdata m p)
  | _ => .panic (.error argError)

/-- The function `checkDuration` on the argument at place `n`: the pointer held
by the user-data, nil when it holds no duration. -/
def checkDuration (heap : Nat → UserValue) : LValue → Outcome (Option Int)
  | .luserdata _ p =>
    match heap p with
    | .duration d => .ret (some d)
    | _ => .ret none
  | _ => .panic (.error typeError)

/-- The function `checkAnyDurationLike` on the argument at place `n`; a number
is taken as a count of nanoseconds. -/
def checkAnyDurationLike (lib : TypeLib) (heap : Nat → UserValue) :
    LValue → Outcome (Option Int)
  | .lnumber x => .ret (some x.toInt64)
  | .lstring s =>
    match lib.parseDuration s with
    | .ok d => .ret (some d)
    | .error _ => .panic (.error argError)
  | .lnil => .ret (some 0)
  | .luserdata m p => checkDuration heap (.luserdata m p)
  | _ => .panic (.error argError)

/-- The expression `checkAnyTimeLike(n, L).Add(d)`: the time pointer is
dereferenced. -/
def addToTime (t : Outcome (Option Time)) (d : Int) : Outcome Pushed :=
  match t with
  | .panic v => .panic v
  | .ret none => .panic (.error nilDereference)
  | .ret (some x) => .ret (.time (x.Add d))

/-- The label `falseAssumption` of the metamethod `__add` of the time type:
`checkAnyTimeLike(1, L).Add(*checkAnyDurationLike(2, L))`. -/
def timeAddFormerIsTime (lib : TypeLib) (heap : Nat → UserValue) (a1 a2 : LValue) :
    Outcome Pushed :=
  match checkAnyTimeLike lib heap a1 with
  | .panic v => .panic v
  | .ret t =>
    match checkAnyDurationLike lib heap a2 with
    | .panic v => .panic v
    | .ret none => .panic (.error nilDereference)
    | .ret (some d) => addToTime (.ret t) d

/-- The metamethod `__add` of the time type called with `(a1, a2)`. -/
def timeAdd (lib : TypeLib) (heap : Nat → UserValue) (a1 a2 : LValue) : Outcome Pushed :=
  match a1 with
  | .lstring s =>
    match lib.parseDuration s with
    | .ok d => addToTime (checkAnyTimeLike lib heap a2) d
    | .error _ => timeAddFormerIsTime lib heap a1 a2
  | .luserdata _ p =>
    match heap p with
    | .duration d => addToTime (checkAnyTimeLike lib heap a2) d
    | _ => timeAddFormerIsTime lib heap a1 a2
  | _ => .panic (.error argError)

/-- The metamethod `__sub` of the time type called with `(a1, a2)`. -/
def timeSub (lib : TypeLib) (heap : Nat → UserValue) (a1 a2 : LValue) : Outcome Pushed :=
  match checkAnyTimeLike lib heap a1 with
  | .panic v => .panic v
  | .ret a =>
    match checkAnyTimeLike lib heap a2 with
    | .panic v => .panic v
    | .ret b =>
      match a, b with
      | some x, some y => .ret (.duration (x.Sub y))
      | _, _ => .panic (.error nilDereference)

/-- The metamethod `__add` of the duration type called with `(a1, a2)`. -/
def durationAdd (lib : TypeLib) (heap : Nat → UserValue) (a1 a2 : LValue) : Outcome Pushed :=
  match checkAnyDurationLike lib heap a1 with
  | .panic v => .panic v
  | .ret a =>
    match checkAnyDurationLike lib heap a2 with
    | .panic v => .panic v
    | .ret b =>
      match a, b with
      | some x, some y => .ret (.duration (wrapInt64 (x + y)))
      | _, _ => .panic (.error nilDereference)

/-- The metamethod that the interpreter calls for `lhs + rhs` (its `metaOp2`):
the `__add` of the metatable of `lhs` when that metatable has one, otherwise
the `__add` of the metatable of `rhs`.  The metatable of a user-data is told by
its field `@type`. -/
def plusMetamethod (lib : TypeLib) (heap : Nat → UserValue) (lhs rhs : LValue) :
    Outcome Pushed :=
  let pick : LValue → Option (LValue → LValue → Outcome Pushed) := fun v =>
    match v with
    | .luserdata (some "time") _ => some (timeAdd lib heap)
    | .luserdata (some "duration") _ => some (durationAdd lib heap)
    | .luserdata (some "decimal") _ => some (fun a b => decimalAdd lib heap [a, b])
    | _ => none
  match pick lhs with
  | some f => f lhs rhs
  | none =>
    match pick rhs with
    | some f => f lhs rhs
    | none => .panic (.error typeError)

/-! ## Notions used by the statements -/

/-- The index keys that start with `p`, in index order. -/
def extending (t : List Key) (p : Key) : List Key := t.filter (fun x => p.isPrefixOf x)

/-- The index holds its keys in strictly ascending byte order. -/
def artSorted (t : List Key) : Prop := t.Pairwise (fun a b => keyLt a b = true)

instance (t : List Key) : Decidable (artSorted t) := by
  unfold artSorted
  infer_instance

/-- Index coherence: the index holds a key exactly when the engine does. -/
def coherent (k : kvStore) : Prop := ∀ x, x ∈ k.art ↔ (dbLookup k.db x).isSome = true

/-- A store with three keys, two of which start with the byte `a`. -/
def sampleStore : kvStore :=
  ⟨[(ofString "ab", [1]), (ofString "ac", [2]), (ofString "b", [3])],
   [ofString "ab", ofString "ac", ofString "b"]⟩

/-- The store that `Set` of the empty key builds from the empty store. -/
def emptyKeyStore : kvStore := ⟨[([], [1])], [[]]⟩

/-- A full identifier: 32 hexadecimal characters. -/
def fullKey : Key := ofString "0123456789abcdef0123456789abcdef"

/-- A store holding one script under `fullKey`. -/
def scriptStore : kvStore := ⟨[(fullKey, [1, 2, 3])], [fullKey]⟩

/-- A script library that accepts every source and encodes it as the byte 9. -/
def sampleLib : LuaLib Unit Unit :=
  ⟨fun _ => .ret (.ok ()), fun _ => .ret (.ok ()), fun _ => .ret (.ok [9])⟩

/-- A run of the generated parser that panics with a string value, as it does
over a reader whose `Read` panics with the string `boom`. -/
def panickingParser : String → Outcome (List Unit) :=
  fun _ => .panic (.other "boom")

/-- The script library with `parse.Parse` over `panickingParser`; it compiles
every statement list, the empty one included, and encodes it as the byte 9. -/
def panickingLib : LuaLib (List Unit) Unit :=
  ⟨parse.Parse panickingParser, fun _ => .ret (.ok ()), fun _ => .ret (.ok [9])⟩

/-- A UUID. -/
def sampleUUID : UUID :=
  ⟨[0x6b, 0xa7, 0xb8, 0x10, 0x9d, 0xad, 0x11, 0xd1, 0x80, 0xb4, 0x00, 0xc0, 0x4f, 0xd4,
    0x30, 0xc8], by decide⟩

/-- A generator that fails on its first call and succeeds on every later one. -/
def flakyGen : Nat → Except Err UUID :=
  fun n => if n = 0 then .error (.uuid 1) else .ok sampleUUID

/-- A byte in `[0-9a-f]`. -/
def isLowerHex (c : Nat) : Prop := (48 ≤ c ∧ c ≤ 57) ∨ (97 ≤ c ∧ c ≤ 102)

instance (c : Nat) : Decidable (isLowerHex c) := by
  unfold isLowerHex
  infer_instance

/-- The key on which the scan of `Get` and `Delete` settles when fewer than two
index keys start with `key`: the index key that starts with it, or `key`
itself when there is none. -/
def resolvedKey (t : List Key) (key : Key) : Key := ((extending t key).head?).getD key

/-- The process state before any VM has been made. -/
def World.init : World := ⟨[], [], 0⟩

/-- A host without registered types. -/
def sampleHost : HostLib := ⟨fun _ => none, fun _ => "?"⟩

/-- A run in which the script calls `this.returns(1)`, then `this.returns(2, "x")`,
and returns the number 7 from its top-level function. -/
def sampleRun : ScriptRun :=
  ⟨[[.lnumber (.finite 1)], [.lnumber (.finite 2), .lstring "x"]], [.lnumber (.finite 7)], none⟩

/-- A library that decodes every byte sequence and runs it as `sampleRun`. -/
def sampleRunLib : RunLib Unit :=
  ⟨sampleHost, fun _ => .ok (), fun _ _ => .ret sampleRun⟩

/-- The wire scalars: the host values that `Any` yields for a wrapper message. -/
def isWireScalar : HostValue → Prop
  | .str _ => True
  | .bool _ => True
  | .int32 _ => True
  | .int64 _ => True
  | .uint32 _ => True
  | .uint64 _ => True
  | .float32 _ => True
  | .float64 _ => True
  | _ => False

/-- The conversion of the arguments of one call of `this.returns`, when no
`goType` in it panics. -/
def completed (h : HostLib) (c : List LValue) : Option (List HostValue) :=
  match goTypeArgs h c [] with
  | .ret l => some l
  | .panic _ => none

/-- Calls of `Get`, one after the other, each returning at once: the pool and
the state after `n` calls and the VMs obtained; `none` when a call suspends. -/
def acquireAll : Nat → vmPool → World → Option (vmPool × World × List VM)
  | 0, p, w => some (p, w, [])
  | n + 1, p, w =>
    match p.Get w with
    | .waits _ => none
    | .got vm p1 w1 => (acquireAll n p1 w1).map (fun r => (r.1, r.2.1, vm :: r.2.2))

/-- Calls of `Put`, one for each VM of a list. -/
def releaseAll : List VM → vmPool → vmPool
  | [], p => p
  | vm :: rest, p => releaseAll rest (p.Put vm).1

/-- The pool of the default limit with 256 idle VMs and none running. -/
def fullIdlePool : vmPool := ⟨(List.range 256).map some, 256, 0, 0⟩

/-- A pool holding one idle VM, the VM 0. -/
def oneIdlePool : vmPool := ⟨[some 0], 256, 0, 0⟩

/-- A second full identifier; it shares the first two characters of `fullKey`. -/
def fullKey2 : Key := ofString "01ffffffffffffffffffffffffffffff"

/-- A store holding two scripts, under `fullKey` and under `fullKey2`. -/
def twoScriptStore : kvStore :=
  ⟨[(fullKey, [1, 2, 3]), (fullKey2, [4])], [fullKey, fullKey2]⟩

/-- The script number of an integer. -/
def numberArg (i : Int) : LValue := .lnumber (.finite (i : ℚ))

/-- An invocation context with three inputs. -/
def sampleThis : GlobalThis := ⟨[.str "a", .float64 (.finite 2), .bool true], []⟩

/-- The value of a decimal, a rational number. -/
def Decimal.toRat (d : Decimal) : ℚ := (d.value : ℚ) * (10 : ℚ) ^ d.exp

/-- The number written by a list of decimal digits, `none` when a character is
not a digit. -/
def digitsValue : List Char → Nat → Option Nat
  | [], acc => some acc
  | c :: rest, acc =>
    if c.isDigit then digitsValue rest (acc * 10 + (c.toNat - 48)) else none

/-- A reading of plain decimal literals, an optional `-`, digits and at most one
point: what `decimal.NewFromString` yields for them. -/
def plainDecimal (s : String) : Except Err Decimal :=
  let cs := s.toList
  let neg : Bool := cs.head? = some '-'
  let body := if neg then cs.drop 1 else cs
  let ip := body.takeWhile (fun c => c ≠ '.')
  let fp := (body.dropWhile (fun c => c ≠ '.')).drop 1
  if (ip ++ fp).isEmpty then .error (.lua 3)
  else
    match digitsValue (ip ++ fp) 0 with
    | some n => .ok ⟨if neg then -(n : Int) else n, -(fp.length : Int)⟩
    | none => .error (.lua 3)

/-- A library for the host types: plain decimal literals, no time or duration
texts, and the roundings of a decimal by its value. -/
def sampleTypeLib : TypeLib where
  parseDecimal := plainDecimal
  parseTime := fun _ _ => .error (.lua 3)
  parseDuration := fun _ => .error (.lua 3)
  round := fun d p => ⟨round (d.toRat * 10 ^ p), -p⟩
  roundFloor := fun d p => ⟨⌊d.toRat * 10 ^ p⌋, -p⟩
  roundCeil := fun d p => ⟨⌈d.toRat * 10 ^ p⌉, -p⟩
  floor := fun d => ⟨⌊d.toRat⌋, 0⟩
  ceil := fun d => ⟨⌈d.toRat⌉, 0⟩

/-- The year 1000 and the year 2024, as instants: 1000-01-01T00:00:00Z and
2024-01-01T00:00:00Z. -/
def year1000 : Time := ⟨-30610224000 * 1000000000⟩

/-- The instant 2024-01-01T00:00:00Z. -/
def year2024 : Time := ⟨1704067200 * 1000000000⟩

/-- The user-data of the examples: the decimals 1.1, 2.2 and 1.5, the instant
`year2024`, the duration of one hour, the instant `year1000`, the greatest
duration. -/
def sampleHeap : Nat → UserValue
  | 1 => .decimal ⟨11, -1⟩
  | 2 => .decimal ⟨22, -1⟩
  | 3 => .decimal ⟨15, -1⟩
  | 4 => .time year2024
  | 5 => .duration 3600000000000
  | 6 => .time year1000
  | 7 => .duration maxDuration
  | _ => .other

/-- The heap in which the result `v` of a builtin has become the user-data `p`. -/
def heapWith (heap : Nat → UserValue) (p : Nat) (v : UserValue) : Nat → UserValue :=
  fun q => if q = p then v else heap q

/-! ## Lemmas on the engine and on the index -/

theorem dbLookup_dbPut (db : DB) (k k' : Key) (v : Bytes) :
    dbLookup (dbPut db k v) k' = if k = k' then some v else dbLookup db k' := by
  induction db with
  | nil => simp [dbPut, dbLookup]
  | cons hd tl ih =>
    obtain ⟨a, b⟩ := hd
    by_cases h : a = k
    · subst h
      by_cases h' : a = k' <;> simp [dbPut, dbLookup, h']
    · by_cases h' : a = k'
      · subst h'
        simp [dbPut, dbLookup, h, Ne.symm h]
      · simp [dbPut, dbLookup, h, h', ih]

theorem dbLookup_dbErase (db : DB) (k k' : Key) :
    dbLookup (dbErase db k) k' = if k = k' then none else dbLookup db k' := by
  induction db with
  | nil => simp [dbErase, dbLookup]
  | cons hd tl ih =>
    obtain ⟨a, b⟩ := hd
    by_cases h : a = k
    · subst h
      by_cases h' : a = k'
      · subst h'
        simpa [dbErase] using ih
      · simp [dbErase, dbLookup, h', ih]
    · by_cases h' : a = k'
      · subst h'
        simp [dbErase, dbLookup, h, Ne.symm h]
      · simp [dbErase, dbLookup, h, h', ih]

theorem mem_artInsert (t : List Key) (k x : Key) :
    x ∈ artInsert t k ↔ x = k ∨ x ∈ t := by
  induction t with
  | nil => simp [artInsert]
  | cons hd tl ih =>
    simp only [artInsert]
    split
    · rename_i h
      subst h
      simp
    · split
      · simp
      · simp [ih]
        tauto

theorem mem_artDelete (t : List Key) (k x : Key) (hk : k ≠ []) :
    x ∈ artDelete t k ↔ x ∈ t ∧ x ≠ k := by
  simp [artDelete, hk]

theorem artDelete_nil (t : List Key) : artDelete t [] = t := by
  simp [artDelete]

theorem mem_extending (t : List Key) (p x : Key) :
    x ∈ extending t p ↔ x ∈ t ∧ p <+: x := by
  simp [extending, List.isPrefixOf_iff_prefix]

/-- The scan of `Get` and `Delete` after a first match: it stops at the next one. -/
theorem scan_from_one (p : Key) (t : List Key) (x : Key) :
    ForEachPrefix p
      (fun (st : Key × Nat) node => ((node, st.2 + 1), decide (st.2 + 1 < 2))) t (x, 1)
    = match extending t p with
      | [] => (x, 1)
      | b :: _ => (b, 2) := by
  induction t with
  | nil => simp [ForEachPrefix, extending]
  | cons hd tl ih =>
    by_cases h : p.isPrefixOf hd
    · simp [ForEachPrefix, extending, h]
    · simp only [extending] at ih
      simp [ForEachPrefix, extending, h, ih]

/-- The scan of `Get` and `Delete` from its start. -/
theorem scan_from_zero (p : Key) (t : List Key) (x : Key) :
    ForEachPrefix p
      (fun (st : Key × Nat) node => ((node, st.2 + 1), decide (st.2 + 1 < 2))) t (x, 0)
    = match extending t p with
      | [] => (x, 0)
      | [a] => (a, 1)
      | _ :: b :: _ => (b, 2) := by
  induction t with
  | nil => simp [ForEachPrefix, extending]
  | cons hd tl ih =>
    by_cases h : p.isPrefixOf hd
    · have h1 := scan_from_one p tl hd
      simp only [extending] at h1
      simp only [ForEachPrefix, extending, h, List.filter_cons_of_pos]
      simp only [zero_add, Nat.one_lt_ofNat, decide_True, if_true, h1]
      cases List.filter (fun x => p.isPrefixOf x) tl <;> rfl
    · simp only [extending] at ih
      simp [ForEachPrefix, extending, h, ih]

theorem extending_eq_nil (t : List Key) (p : Key) (h : ∀ x ∈ t, ¬ p <+: x) :
    extending t p = [] := by
  apply List.eq_nil_iff_forall_not_mem.mpr
  intro x hx
  rw [mem_extending] at hx
  exact h x hx.1 hx.2

theorem extending_eq_singleton (t : List Key) (p full : Key) (hnd : t.Nodup)
    (hmem : full ∈ t) (hp : p <+: full) (huniq : ∀ x ∈ t, p <+: x → x = full) :
    extending t p = [full] := by
  have hin : full ∈ extending t p := (mem_extending t p full).mpr ⟨hmem, hp⟩
  have hall : ∀ x ∈ extending t p, x = full := fun x hx =>
    huniq x ((mem_extending t p x).mp hx).1 ((mem_extending t p x).mp hx).2
  have hnd2 : (extending t p).Nodup := hnd.filter _
  generalize extending t p = l at hin hall hnd2
  match l, hin, hall, hnd2 with
  | [a], _, hall, _ => rw [hall a (by simp)]
  | a :: b :: rest, _, hall, hnd2 =>
    have ha := hall a (by simp)
    have hb := hall b (by simp)
    rw [ha, hb] at hnd2
    simp at hnd2

theorem extending_two (t : List Key) (p a b : Key) (ha : a ∈ t) (hb : b ∈ t) (hab : a ≠ b)
    (hpa : p <+: a) (hpb : p <+: b) : ∃ x y rest, extending t p = x :: y :: rest := by
  have hina : a ∈ extending t p := (mem_extending t p a).mpr ⟨ha, hpa⟩
  have hinb : b ∈ extending t p := (mem_extending t p b).mpr ⟨hb, hpb⟩
  generalize extending t p = l at hina hinb
  match l, hina, hinb with
  | [c], hina, hinb =>
    simp at hina hinb
    exact absurd (hina.trans hinb.symm) hab
  | x :: y :: rest, _, _ => exact ⟨x, y, rest, rfl⟩

/-- The fault-free engine read of lines 61-65: the value, or "not found". -/
theorem engineGet_noFaults (db : DB) (x : Key) :
    engineGet db x noFaults
      = match dbLookup db x with
        | some v => (some v, none)
        | none => (none, some Err.notFound) := by
  unfold engineGet pebbleGet noFaults closerClose
  cases dbLookup db x <;> rfl

/-! ## C1: `kvStore.Get` -/

/-- C1. With the engine a finite map and the index a duplicate-free key list:
for a key shorter than 32 bytes `Get` fails with `ErrMultiplePairsFound` when
two distinct index keys extend it, returns the engine read of the single
index key that extends it when exactly one does, and returns the engine read
of the key itself when none does; for a key of length 32 `Get` is the engine
read of that key whatever the index holds.  The engine read yields the stored
value, or "not found" when the key is absent. -/
theorem Get_resolves_short_keys (k : kvStore) (key : Key) (f : DbFaults)
    (hnd : k.art.Nodup) :
    (key.length < 32 →
      ((∃ a b, a ∈ k.art ∧ b ∈ k.art ∧ a ≠ b ∧ key <+: a ∧ key <+: b) →
        k.Get key f = (none, some Err.multiplePairsFound)) ∧
      (∀ full, full ∈ k.art → key <+: full → (∀ x ∈ k.art, key <+: x → x = full) →
        k.Get key f = engineGet k.db full f) ∧
      ((∀ x ∈ k.art, ¬ key <+: x) → k.Get key f = engineGet k.db key f)) ∧
    (key.length = 32 →
      ∀ t : List Key, (kvStore.mk k.db t).Get key f = engineGet k.db key f) ∧
    (∀ x, engineGet k.db x noFaults
      = match dbLookup k.db x with
        | some v => (some v, none)
        | none => (none, some Err.notFound)) := by
  refine ⟨fun hlen => ⟨?_, ?_, ?_⟩, ?_, fun x => engineGet_noFaults k.db x⟩
  · rintro ⟨a, b, ha, hb, hab, hpa, hpb⟩
    obtain ⟨x, y, rest, hxy⟩ := extending_two k.art key a b ha hb hab hpa hpb
    simp [kvStore.Get, hlen, scan_from_zero, hxy]
  · intro full hmem hp huniq
    have h1 := extending_eq_singleton k.art key full hnd hmem hp huniq
    simp [kvStore.Get, hlen, scan_from_zero, h1]
  · intro hnone
    have h0 := extending_eq_nil k.art key hnone
    simp [kvStore.Get, hlen, scan_from_zero, h0]
  · intro hlen t
    simp [kvStore.Get, hlen]

/-- C1 at `sampleStore`: the prefix `a` is ambiguous, the prefix `b` resolves. -/
theorem Get_resolves_short_keys_witness :
    sampleStore.art.Nodup ∧
    sampleStore.Get (ofString "a") noFaults = (none, some Err.multiplePairsFound) ∧
    sampleStore.Get (ofString "b") noFaults = engineGet sampleStore.db (ofString "b") noFaults :=
  ⟨by decide,
   ((Get_resolves_short_keys sampleStore (ofString "a") noFaults (by decide)).1
      (by decide)).1 ⟨ofString "ab", ofString "ac", by decide⟩,
   ((Get_resolves_short_keys sampleStore (ofString "b") noFaults (by decide)).1
      (by decide)).2.1 (ofString "b") (by decide) (by decide) (by decide)⟩

/-! ## The index order -/

theorem keyLt_irrefl (a : Key) : keyLt a a = false := by
  induction a with
  | nil => rfl
  | cons x xs ih => simp [keyLt, ih]

theorem keyLt_trans (a b c : Key) (hab : keyLt a b = true) (hbc : keyLt b c = true) :
    keyLt a c = true := by
  induction a generalizing b c with
  | nil =>
    cases b with
    | nil => simp [keyLt] at hab
    | cons y ys =>
      cases c with
      | nil => simp [keyLt] at hbc
      | cons z zs => simp [keyLt]
  | cons x xs ih =>
    cases b with
    | nil => simp [keyLt] at hab
    | cons y ys =>
      cases c with
      | nil => simp [keyLt] at hbc
      | cons z zs =>
        simp only [keyLt] at hab hbc ⊢
        by_cases hxy : x < y
        · by_cases hyz : y < z
          · have : x < z := by omega
            simp [this]
          · by_cases hzy : z < y
            · simp [hyz, hzy] at hbc
            · have : x < z := by omega
              simp [this]
        · by_cases hyx : y < x
          · simp [hxy, hyx] at hab
          · simp only [hxy, hyx, if_false] at hab
            have hxy' : x = y := by omega
            subst hxy'
            by_cases hxz : x < z
            · simp [hxz]
            · by_cases hzx : z < x
              · simp [hxz, hzx] at hbc
              · simp only [hxz, hzx, if_false] at hbc ⊢
                exact ih ys zs hab hbc

theorem keyLt_total (a b : Key) (hne : a ≠ b) (h : keyLt a b = false) : keyLt b a = true := by
  induction a generalizing b with
  | nil =>
    cases b with
    | nil => exact absurd rfl hne
    | cons y ys => simp [keyLt] at h
  | cons x xs ih =>
    cases b with
    | nil => simp [keyLt]
    | cons y ys =>
      simp only [keyLt] at h ⊢
      by_cases hxy : x < y
      · simp [hxy] at h
      · by_cases hyx : y < x
        · simp [hyx]
        · simp only [hxy, hyx, if_false] at h ⊢
          have hxy' : x = y := by omega
          subst hxy'
          exact ih ys (fun e => hne (by rw [e])) h

theorem artSorted_nodup (t : List Key) (h : artSorted t) : t.Nodup := by
  unfold artSorted at h
  refine List.Pairwise.imp ?_ h
  intro a b hab e
  subst e
  rw [keyLt_irrefl] at hab
  exact Bool.noConfusion hab

theorem artSorted_artInsert (t : List Key) (k : Key) (h : artSorted t) :
    artSorted (artInsert t k) := by
  unfold artSorted at h ⊢
  induction t with
  | nil => simp [artInsert]
  | cons x xs ih =>
    rw [List.pairwise_cons] at h
    simp only [artInsert]
    split
    · exact List.pairwise_cons.mpr h
    · rename_i hne
      split
      · rename_i hlt
        refine List.pairwise_cons.mpr ⟨?_, List.pairwise_cons.mpr h⟩
        intro y hy
        rcases List.mem_cons.mp hy with e | hmem
        · rw [e]; exact hlt
        · exact keyLt_trans k x y hlt (h.1 y hmem)
      · rename_i hnlt
        have hxk : keyLt x k = true :=
          keyLt_total k x hne (by simpa using hnlt)
        refine List.pairwise_cons.mpr ⟨?_, ih h.2⟩
        intro y hy
        rcases (mem_artInsert xs k y).mp hy with e | hmem
        · rw [e]; exact hxk
        · exact h.1 y hmem

theorem artSorted_artDelete (t : List Key) (k : Key) (h : artSorted t) :
    artSorted (artDelete t k) := by
  unfold artSorted at h ⊢
  unfold artDelete
  split
  · exact h
  · exact h.filter _

/-! ## C2: `kvStore.HasKeyPrefix` -/

/-- The scan of `HasKeyPrefix`: it stops at the first key that starts with `p`. -/
theorem scan_first (p : Key) (t : List Key) (s0 : Key × Bool) :
    ForEachPrefix p (fun (_ : Key × Bool) node => ((node, true), !true)) t s0
    = match extending t p with
      | [] => s0
      | first :: _ => (first, true) := by
  induction t with
  | nil => simp [ForEachPrefix, extending]
  | cons hd tl ih =>
    by_cases h : p.isPrefixOf hd
    · simp [ForEachPrefix, extending, h]
    · simp only [extending] at ih
      simpa [ForEachPrefix, extending, h] using ih

theorem extending_sorted (t : List Key) (p : Key) (h : artSorted t) :
    artSorted (extending t p) := by
  unfold artSorted at h ⊢
  exact h.filter _

/-- C2, the claim refuted: at `sampleStore` the prefix `a` yields `(ab, true)`
although the index key `ac` extends `a` as well. -/
theorem HasKeyPrefix_unique_counterexample :
    (ofString "a").length < 32 ∧
    sampleStore.HasKeyPrefix (ofString "a") noFaults = (ofString "ab", true) ∧
    ¬ (∀ x ∈ sampleStore.art, ofString "a" <+: x → x = ofString "ab") := by
  decide

/-- C2, amended.  For a prefix `p` shorter than 32 bytes and an index in
ascending order: if `HasKeyPrefix p` returns `(full, true)` then `full` is an
index key that starts with `p`, and it is the least such key; every other
index key that starts with `p` is greater. -/
theorem HasKeyPrefix_first_match (k : kvStore) (p full : Key) (f : DbFaults)
    (hsorted : artSorted k.art) (hlen : p.length < 32)
    (h : k.HasKeyPrefix p f = (full, true)) :
    full ∈ k.art ∧ p <+: full ∧
      ∀ x ∈ k.art, p <+: x → x = full ∨ keyLt full x = true := by
  have hs := extending_sorted k.art p hsorted
  have hmem := mem_extending k.art p
  simp only [kvStore.HasKeyPrefix, hlen, if_true, scan_first] at h
  generalize extending k.art p = l at h hs hmem
  match l, h, hs, hmem with
  | [], h, _, _ => simp at h
  | first :: rest, h, hs, hmem =>
    simp only [Prod.mk.injEq, and_true] at h
    subst h
    have h1 := (hmem first).mp (by simp)
    refine ⟨h1.1, h1.2, ?_⟩
    intro x hx hpx
    have hx2 := (hmem x).mpr ⟨hx, hpx⟩
    rcases List.mem_cons.mp hx2 with e | hr
    · exact Or.inl e
    · exact Or.inr ((List.pairwise_cons.mp hs).1 x hr)

/-- C2 amended, at `sampleStore` and the prefix `a`. -/
theorem HasKeyPrefix_first_match_witness :
    artSorted sampleStore.art ∧ (ofString "a").length < 32 ∧
    sampleStore.HasKeyPrefix (ofString "a") noFaults = (ofString "ab", true) ∧
    (ofString "ab" ∈ sampleStore.art ∧ ofString "a" <+: ofString "ab" ∧
      ∀ x ∈ sampleStore.art, ofString "a" <+: x →
        x = ofString "ab" ∨ keyLt (ofString "ab") x = true) :=
  ⟨by decide, by decide, by decide,
   HasKeyPrefix_first_match sampleStore (ofString "a") (ofString "ab") noFaults
     (by decide) (by decide) (by decide)⟩

/-! ## C3: index coherence under `Set` and `Delete` -/

theorem coherent_Set (k : kvStore) (key : Key) (value : Bytes) (f : DbFaults)
    (hc : coherent k) (hget : f.get = none) (hwrite : f.write = none) :
    coherent (k.Set key value f).1 := by
  intro x
  simp only [kvStore.Set, pebbleGet, pebbleSet, hget, hwrite]
  cases hl : dbLookup k.db key with
  | some v =>
    simp only [dbLookup_dbPut]
    by_cases hx : key = x
    · subst hx
      simp [(hc key), hl]
    · simp [hx, hc x]
  | none =>
    simp only [if_true, dbLookup_dbPut, mem_artInsert]
    by_cases hx : key = x
    · subst hx
      simp
    · simp [hx, Ne.symm hx, hc x]

theorem coherent_deleteAt (k : kvStore) (r : Key) (f : DbFaults)
    (hc : coherent k) (hget : f.get = none) (hwrite : f.write = none) (hr : r ≠ []) :
    coherent (deleteAt k r f).1 := by
  intro x
  simp only [deleteAt, pebbleGet, pebbleDelete, hget, hwrite]
  cases hl : dbLookup k.db r with
  | some v =>
    simp only [dbLookup_dbErase, mem_artDelete _ _ _ hr]
    by_cases hx : r = x
    · subst hx
      simp
    · simp [hx, Ne.symm hx, hc x]
  | none =>
    simp only [dbLookup_dbErase]
    by_cases hx : r = x
    · subst hx
      simp [hc r, hl]
    · simp [hx, hc x]

theorem extension_ne_nil (key a : Key) (hkey : key ≠ []) (h : key <+: a) : a ≠ [] := by
  intro e
  subst e
  exact hkey (List.prefix_nil.mp h)

theorem coherent_Delete (k : kvStore) (key : Key) (f : DbFaults)
    (hc : coherent k) (hget : f.get = none) (hwrite : f.write = none) (hkey : key ≠ []) :
    coherent (k.Delete key f).1 := by
  unfold kvStore.Delete
  split
  · simp only [scan_from_zero]
    have hmem := mem_extending k.art key
    generalize extending k.art key = l at hmem
    match l, hmem with
    | [], _ => exact coherent_deleteAt k key f hc hget hwrite hkey
    | [a], hmem =>
      have ha := ((hmem a).mp (by simp)).2
      exact coherent_deleteAt k a f hc hget hwrite (extension_ne_nil key a hkey ha)
    | a :: b :: rest, _ => exact hc
  · exact coherent_deleteAt k key f hc hget hwrite hkey

theorem coherent_empty : coherent kvStore.empty := by
  intro x
  simp [kvStore.empty, dbLookup]

theorem coherent_sampleStore : coherent sampleStore := by
  intro x
  simp only [sampleStore, dbLookup, List.mem_cons, List.mem_singleton]
  by_cases h1 : ofString "ab" = x
  · subst h1; decide
  · by_cases h2 : ofString "ac" = x
    · subst h2; decide
    · by_cases h3 : ofString "b" = x
      · subst h3; decide
      · simp [h1, h2, h3, Ne.symm h1, Ne.symm h2, Ne.symm h3, dbLookup]

theorem coherent_emptyKeyStore : coherent emptyKeyStore := by
  intro x
  simp only [emptyKeyStore, dbLookup, List.mem_singleton]
  by_cases h : ([] : Key) = x
  · subst h; decide
  · simp [h, Ne.symm h, dbLookup]

/-- The store `sampleStore` is what three calls of `Set` build from the empty store. -/
theorem sampleStore_reachable :
    (((kvStore.empty.Set (ofString "b") [3] noFaults).1.Set (ofString "ab") [1] noFaults).1.Set
      (ofString "ac") [2] noFaults).1.art = sampleStore.art ∧
    ∀ x ∈ sampleStore.art,
      dbLookup (((kvStore.empty.Set (ofString "b") [3] noFaults).1.Set (ofString "ab") [1]
        noFaults).1.Set (ofString "ac") [2] noFaults).1.db x = dbLookup sampleStore.db x := by
  decide

/-- C3, the claim refuted.  On the coherent empty store a `Set` whose engine
write fails returns the engine error and leaves the key in the index only; on
the coherent `sampleStore` a `Delete` whose engine write fails returns the
engine error and leaves the key in the engine only.  And without any engine
error: on the coherent store that `Set` of the empty key builds, `Delete` of
the empty key succeeds and leaves the empty key in the index only. -/
theorem write_coherence_counterexample :
    (coherent kvStore.empty ∧
      kvStore.empty.Set (ofString "ab") [1] ⟨none, none, some 7⟩
        = (⟨[], [ofString "ab"]⟩, some (Err.engine 7)) ∧
      ¬ coherent (kvStore.empty.Set (ofString "ab") [1] ⟨none, none, some 7⟩).1) ∧
    (coherent sampleStore ∧
      sampleStore.Delete (ofString "b") ⟨none, none, some 7⟩
        = (⟨sampleStore.db, [ofString "ab", ofString "ac"]⟩, some (Err.engine 7)) ∧
      ¬ coherent (sampleStore.Delete (ofString "b") ⟨none, none, some 7⟩).1) ∧
    (kvStore.empty.Set [] [1] noFaults = (emptyKeyStore, none) ∧
      coherent emptyKeyStore ∧
      emptyKeyStore.Delete [] noFaults = (⟨[], [[]]⟩, none) ∧
      ¬ coherent (emptyKeyStore.Delete [] noFaults).1) := by
  refine ⟨⟨coherent_empty, by decide, ?_⟩, ⟨coherent_sampleStore, by decide, ?_⟩,
    ⟨by decide, coherent_emptyKeyStore, by decide, ?_⟩⟩
  · intro h
    have h1 := (h (ofString "ab")).mp (by decide)
    revert h1
    decide
  · intro h
    have h1 := (h (ofString "b")).mpr (by decide)
    revert h1
    decide
  · intro h
    have h1 := (h []).mp (by decide)
    revert h1
    decide

/-- C3, amended.  From a coherent store, a `Set`, or a `Delete` of a key that
is not empty, during which the engine reports no error on its read and on its
write (a "not found" read and a `Delete` refused with `ErrMultiplePairsFound`
included) leaves the store coherent. -/
theorem writes_preserve_coherence (k : kvStore) (key : Key) (value : Bytes)
    (f : DbFaults) (hc : coherent k) (hget : f.get = none) (hwrite : f.write = none) :
    coherent (k.Set key value f).1 ∧ (key ≠ [] → coherent (k.Delete key f).1) :=
  ⟨coherent_Set k key value f hc hget hwrite, coherent_Delete k key f hc hget hwrite⟩

/-- C3 amended, at `sampleStore`: the `Set` of the new key `ad` puts it into
the engine and into the index, the `Delete` of the key `b` takes it out of
both, and both stores are coherent. -/
theorem writes_preserve_coherence_witness :
    coherent sampleStore ∧ noFaults.get = none ∧ noFaults.write = none ∧
    ofString "b" ≠ [] ∧
    sampleStore.Set (ofString "ad") [4] noFaults
      = (⟨[(ofString "ab", [1]), (ofString "ac", [2]), (ofString "b", [3]),
            (ofString "ad", [4])],
          [ofString "ab", ofString "ac", ofString "ad", ofString "b"]⟩, none) ∧
    sampleStore.Delete (ofString "b") noFaults
      = (⟨[(ofString "ab", [1]), (ofString "ac", [2])], [ofString "ab", ofString "ac"]⟩,
          none) ∧
    coherent (sampleStore.Set (ofString "ad") [4] noFaults).1 ∧
    coherent (sampleStore.Delete (ofString "b") noFaults).1 :=
  ⟨coherent_sampleStore, rfl, rfl, by decide, by decide, by decide,
   (writes_preserve_coherence sampleStore (ofString "ad") [4] noFaults
     coherent_sampleStore rfl rfl).1,
   (writes_preserve_coherence sampleStore (ofString "b") [4] noFaults
     coherent_sampleStore rfl rfl).2 (by decide)⟩

/-! ## C4: `UpdateScript` with a short id -/

/-- C4, the defect.  When `UpdateScript` is called with a valid id shorter
than 32 bytes that `Exists` resolves to another key `full`, and the id itself
is not an engine key, the call succeeds, the compiled bytes are stored under
the id as given (a key whose length is not 32, now also in the index) and the
bytes under `full` are left as they were. -/
theorem UpdateScript_stores_under_request_id {Stmts Proto : Type}
    (lib : LuaLib Stmts Proto) (validate : Key → Bool) (s : kvStore) (id full : Key)
    (script : String) (bc : Bytes) (f1 : DbFaults)
    (hval : validate id = true) (hlen : id.length < 32)
    (hex : LuaManager.Exists s id f1 = (full, true)) (hne : full ≠ id)
    (habs : dbLookup s.db id = none)
    (hcomp : CompileString lib script = (some bc, none)) :
    (HephaestusService.UpdateScript lib validate s id script f1 noFaults).2 = none ∧
    dbLookup (HephaestusService.UpdateScript lib validate s id script f1 noFaults).1.db id
      = some bc ∧
    id ∈ (HephaestusService.UpdateScript lib validate s id script f1 noFaults).1.art ∧
    id.length ≠ 32 ∧
    dbLookup (HephaestusService.UpdateScript lib validate s id script f1 noFaults).1.db full
      = dbLookup s.db full := by
  have hupd : HephaestusService.UpdateScript lib validate s id script f1 noFaults
      = s.Set id bc noFaults := by
    simp [HephaestusService.UpdateScript, hval, hex, LuaManager.Set, hcomp]
  rw [hupd]
  have hlen2 : id.length ≠ 32 := by omega
  simp [kvStore.Set, pebbleGet, pebbleSet, noFaults, habs, dbLookup_dbPut,
    mem_artInsert, Ne.symm hne, hlen2]

/-- C4 at `scriptStore`: updating by the prefix `0123` of `fullKey`. -/
theorem UpdateScript_stores_under_request_id_witness :
    (ofString "0123" <+: fullKey ∧ fullKey.length = 32 ∧
      dbLookup scriptStore.db fullKey = some [1, 2, 3]) ∧
    ((HephaestusService.UpdateScript sampleLib (fun _ => true) scriptStore
        (ofString "0123") "return 1" noFaults noFaults).2 = none ∧
      dbLookup (HephaestusService.UpdateScript sampleLib (fun _ => true) scriptStore
        (ofString "0123") "return 1" noFaults noFaults).1.db (ofString "0123") = some [9] ∧
      ofString "0123" ∈ (HephaestusService.UpdateScript sampleLib (fun _ => true)
        scriptStore (ofString "0123") "return 1" noFaults noFaults).1.art ∧
      (ofString "0123").length ≠ 32 ∧
      dbLookup (HephaestusService.UpdateScript sampleLib (fun _ => true) scriptStore
        (ofString "0123") "return 1" noFaults noFaults).1.db fullKey
        = dbLookup scriptStore.db fullKey) :=
  ⟨by decide,
   UpdateScript_stores_under_request_id sampleLib (fun _ => true) scriptStore
     (ofString "0123") fullKey "return 1" [9] noFaults rfl (by decide) (by decide)
     (by decide) (by decide) rfl⟩

/-! ## C5, C6: `LuaManager.NewKey` -/

theorem hextable_isLowerHex : ∀ i, i < 16 → isLowerHex (hextable.getD i 0) := by
  decide

theorem hexEncode_length (l : List Nat) : (hexEncode l).length = 2 * l.length := by
  induction l with
  | nil => rfl
  | cons v rest ih => simp [hexEncode, ih]; omega

theorem hexEncode_isLowerHex (l : List Nat) : ∀ c ∈ hexEncode l, isLowerHex c := by
  induction l with
  | nil => simp [hexEncode]
  | cons v rest ih =>
    intro c hc
    simp only [hexEncode, List.mem_cons] at hc
    rcases hc with h | h | h
    · rw [h]; exact hextable_isLowerHex _ (by omega)
    · rw [h]; exact hextable_isLowerHex _ (by omega)
    · exact ih c h

theorem hexEncode_append (a b : List Nat) :
    hexEncode (a ++ b) = hexEncode a ++ hexEncode b := by
  induction a with
  | nil => rfl
  | cons v rest ih => simp [hexEncode, ih]

theorem ReplaceAll_append (a b : List Nat) (old : Nat) (new : List Nat) :
    ReplaceAll (a ++ b) old new = ReplaceAll a old new ++ ReplaceAll b old new := by
  induction a with
  | nil => simp [ReplaceAll]
  | cons v rest ih =>
    simp only [ReplaceAll] at ih
    simp [ReplaceAll, ih]

theorem ReplaceAll_dash_of_hex (l : List Nat) (h : ∀ c ∈ l, isLowerHex c) :
    ReplaceAll l dash [] = l := by
  induction l with
  | nil => simp [ReplaceAll]
  | cons v rest ih =>
    have hv : v ≠ dash := by
      have := h v (by simp)
      unfold isLowerHex at this
      unfold dash
      omega
    have ih2 := ih (fun c hc => h c (by simp [hc]))
    simp only [ReplaceAll] at ih2
    simp [ReplaceAll, hv, ih2]

/-- The id built from a UUID: its sixteen bytes in hexadecimal, the four
separators of the 36-character text removed. -/
theorem ReplaceAll_String (u : UUID) :
    ReplaceAll u.String dash [] = hexEncode u.bytes := by
  have hd : ReplaceAll [dash] dash [] = [] := by simp [ReplaceAll]
  have hh : ∀ l, ReplaceAll (hexEncode l) dash [] = hexEncode l :=
    fun l => ReplaceAll_dash_of_hex _ (hexEncode_isLowerHex l)
  have hsplit : u.bytes = u.bytes.take 4 ++ ((u.bytes.drop 4).take 2 ++
      ((u.bytes.drop 6).take 2 ++ ((u.bytes.drop 8).take 2 ++ u.bytes.drop 10))) := by
    have h1 : (u.bytes.drop 8).take 2 ++ u.bytes.drop 10 = u.bytes.drop 8 := by
      have := List.take_append_drop 2 (u.bytes.drop 8)
      simpa [List.drop_drop] using this
    have h2 : (u.bytes.drop 6).take 2 ++ u.bytes.drop 8 = u.bytes.drop 6 := by
      have := List.take_append_drop 2 (u.bytes.drop 6)
      simpa [List.drop_drop] using this
    have h3 : (u.bytes.drop 4).take 2 ++ u.bytes.drop 6 = u.bytes.drop 4 := by
      have := List.take_append_drop 2 (u.bytes.drop 4)
      simpa [List.drop_drop] using this
    rw [h1, h2, h3, List.take_append_drop]
  unfold UUID.String
  simp only [ReplaceAll_append, hd, hh, List.append_nil]
  conv_rhs => rw [hsplit]
  simp only [hexEncode_append, List.append_assoc]

/-- Whenever the first call of the generator succeeds, `NewKey` returns at
once, with a nil error and an id of exactly 32 bytes, each in `[0-9a-f]`. -/
theorem NewKey_first_attempt (gen : Nat → Except Err UUID) (done : Nat → Bool)
    (fuel : Nat) (u : UUID) (h : gen 0 = .ok u) :
    LuaManager.NewKey gen done fuel = some (hexEncode u.bytes, none) ∧
    (hexEncode u.bytes).length = 32 ∧ ∀ c ∈ hexEncode u.bytes, isLowerHex c := by
  refine ⟨?_, ?_, hexEncode_isLowerHex _⟩
  · simp [LuaManager.NewKey, h, ReplaceAll_String]
  · rw [hexEncode_length, u.size]

theorem retry_result (gen : Nat → Except Err UUID) (done : Nat → Bool) :
    ∀ fuel i err, NewKey.retry gen done fuel i err = none ∨
      ∃ e, NewKey.retry gen done fuel i err = some ([], e) := by
  intro fuel
  induction fuel with
  | zero => intro i err; exact Or.inl rfl
  | succ n ih =>
    intro i err
    simp only [NewKey.retry]
    by_cases hd : done i = true
    · exact Or.inr ⟨err, by simp [hd]⟩
    · simp only [hd]
      cases gen (i + 1) with
      | ok u => exact ih (i + 1) none
      | error e => exact ih (i + 1) (some e)

theorem retry_never (gen : Nat → Except Err UUID) (done : Nat → Bool)
    (h : ∀ i, done i = false) :
    ∀ fuel i err, NewKey.retry gen done fuel i err = none := by
  intro fuel
  induction fuel with
  | zero => intro i err; rfl
  | succ n ih =>
    intro i err
    simp only [NewKey.retry, h i]
    cases gen (i + 1) with
    | ok u => exact ih (i + 1) none
    | error e => exact ih (i + 1) (some e)

/-- C5, the defect.  The generator fails on its first call and succeeds on
the second; `ctx` is cancelled when the loop starts its second pass.  `NewKey`
returns the empty id with a nil error, and the worker of `AddScript` goes on to
store the script under the empty key and to answer with the empty id. -/
theorem NewKey_empty_id_nil_error :
    LuaManager.NewKey flakyGen (fun i => decide (1 ≤ i)) 5 = some ([], none) ∧
    HephaestusService.AddScript sampleLib flakyGen (fun i => decide (1 ≤ i)) 5
        kvStore.empty "return 1" noFaults
      = some (⟨[([], [9])], [[]]⟩, some [], none) := by
  decide

/-- C6, the defect.  Once the first call of the generator has failed, `NewKey`
never returns the id of a later successful call: whatever the generator and
the context do, it either has not returned or returns the empty id; and while
`ctx` is never cancelled it does not return at all, however many passes of the
loop are allowed. -/
theorem NewKey_never_returns_later_id (gen : Nat → Except Err UUID) (done : Nat → Bool)
    (e : Err) (h : gen 0 = .error e) :
    (∀ fuel, LuaManager.NewKey gen done fuel = none ∨
      ∃ err, LuaManager.NewKey gen done fuel = some ([], err)) ∧
    ((∀ i, done i = false) → ∀ fuel, LuaManager.NewKey gen done fuel = none) := by
  constructor
  · intro fuel
    simp only [LuaManager.NewKey, h]
    exact retry_result gen done fuel 0 (some e)
  · intro hd fuel
    simp only [LuaManager.NewKey, h]
    exact retry_never gen done hd fuel 0 (some e)

/-- C6 at `flakyGen`, whose second call succeeds, with `ctx` never cancelled. -/
theorem NewKey_never_returns_later_id_witness :
    flakyGen 0 = .error (Err.uuid 1) ∧
    (∃ u, flakyGen 1 = .ok u) ∧
    ∀ fuel, LuaManager.NewKey flakyGen (fun _ => false) fuel = none :=
  ⟨rfl, ⟨sampleUUID, rfl⟩,
   (NewKey_never_returns_later_id flakyGen (fun _ => false) (Err.uuid 1) rfl).2
     (fun _ => rfl)⟩

/-! ## C7: panics with a value that is not an error -/

/-- A panic whose value is an error, when it reaches the deferred handler of
`Compile` or of `RunString`, is returned as that error. -/
theorem recover_keeps_error_panic {Stmts Proto V : Type}
    (lib : LuaLib Stmts Proto) (src : String)
    (doString : String → List V → Outcome (Option Err × Option (List V)))
    (str : String) (args : List V) (e1 e2 : Err)
    (hp : lib.parse src = .panic (.error e1))
    (hr : doString str args = .panic (.error e2)) :
    Compile lib src = (none, some e1) ∧
    vmPool.RunString doString str args = (none, some e2) := by
  simp [Compile, vmPool.RunString, hp, hr, recoverErr]

/-- The deferred handlers of `Compile` and of `RunString` taken by themselves:
a panic with a value that is not an `error`, were one to reach them, would leave
the error result `nil`. -/
theorem handler_drops_non_error_value {Stmts Proto V : Type}
    (lib : LuaLib Stmts Proto) (src : String)
    (doString : String → List V → Outcome (Option Err × Option (List V)))
    (str : String) (args : List V) (t1 t2 : String)
    (hp : lib.parse src = .panic (.other t1))
    (hr : doString str args = .panic (.other t2)) :
    Compile lib src = (none, none) ∧
    vmPool.RunString doString str args = (none, none) := by
  simp [Compile, vmPool.RunString, hp, hr, recoverErr]

/-- A panic raised inside the script is recovered by the interpreter's `PCall`,
so that `vm.DoString` returns it as an error: `RunString` returns that error. -/
theorem RunString_returns_run_error {V : Type}
    (doString : String → List V → Outcome (Option Err × Option (List V)))
    (str : String) (args : List V) (e : Err) (r : Option (List V))
    (hr : doString str args = .ret (some e, r)) :
    vmPool.RunString doString str args = (r, some e) := by
  simp [vmPool.RunString, hr]

/-- A panic raised while parsing whose value is an error, a syntax error
included, is returned by `Compile` as that error. -/
theorem Compile_error_after_parser_panic {Stmt Proto : Type}
    (yyParse : String → Outcome (List Stmt))
    (compile : List Stmt → Outcome (Except Err Proto))
    (encode : Proto → Outcome (Except Err Bytes)) (src : String) (e : Err)
    (hp : yyParse src = .panic (.error e)) :
    Compile ⟨parse.Parse yyParse, compile, encode⟩ src = (none, some e) := by
  simp [Compile, parse.Parse, hp, recoverErr]

/-- C7, the defect.  When the parser panics with a value that is not an
`error` (the reader given to `Compile` panicking with a string, say), the
panic is recovered inside `parse.Parse`, which returns `(nil, nil)`; `Compile`
finds a nil error, compiles the nil statement list and returns its encoded
bytes with a nil error.  The call reports success, with the bytecode of the
empty program, whenever the compiler and the encoder accept the empty
statement list. -/
theorem Compile_succeeds_after_parser_panic {Stmt Proto : Type}
    (yyParse : String → Outcome (List Stmt))
    (compile : List Stmt → Outcome (Except Err Proto))
    (encode : Proto → Outcome (Except Err Bytes))
    (src text : String) (proto : Proto) (b : Bytes)
    (hp : yyParse src = .panic (.other text))
    (hc : compile [] = .ret (.ok proto)) (he : encode proto = .ret (.ok b)) :
    parse.Parse yyParse src = .ret (.ok []) ∧
    Compile ⟨parse.Parse yyParse, compile, encode⟩ src = (some b, none) := by
  have h1 : parse.Parse yyParse src = .ret (.ok []) := by
    simp [parse.Parse, hp, recoverErr]
  exact ⟨h1, by simp [Compile, h1, hc, he]⟩

/-- C7 at a parser that panics with the string `boom`: `Compile` returns the
bytes of the empty program and a nil error. -/
theorem Compile_succeeds_after_parser_panic_witness :
    panickingParser "x" = .panic (.other "boom") ∧
    parse.Parse panickingParser "x" = .ret (.ok []) ∧
    Compile panickingLib "x" = (some [9], none) :=
  ⟨rfl,
   Compile_succeeds_after_parser_panic panickingParser (fun _ => .ret (.ok ()))
     (fun _ => .ret (.ok [9])) "x" "boom" () [9] rfl rfl rfl⟩

/-! ## C9: `Set` followed by `Get` -/

theorem Set_error_eq_none_iff (k : kvStore) (key : Key) (v : Bytes) (f : DbFaults) :
    (k.Set key v f).2 = none ↔ f.write = none := by
  simp only [kvStore.Set, pebbleSet]
  cases f.write <;> simp

/-- C9, the claim refuted.  On the empty store a `Set` of `fullKey` whose
engine read fails with an error other than "not found" and whose engine write
succeeds returns nil: the key was absent from the engine before the call, it is
in the engine afterwards, and it has not been inserted into the index. -/
theorem Set_index_counterexample :
    fullKey.length = 32 ∧
    dbLookup kvStore.empty.db fullKey = none ∧
    kvStore.empty.Set fullKey [7] ⟨some 5, none, none⟩ = (⟨[(fullKey, [7])], []⟩, none) ∧
    fullKey ∉ (kvStore.empty.Set fullKey [7] ⟨some 5, none, none⟩).1.art := by
  decide

/-- C9, amended.  For a successful `Set key v` with a key of 32 bytes: a
following `Get key` whose engine read and close report no error returns `v`,
and the value of every other engine key is unchanged.  When the engine read
inside `Set` answers "found" or "not found", the key is inserted into the index
when it was absent from the engine and the index is left as it was when the
key was present; when that read fails with another error the index is left as
it was, whether or not the engine held the key.  An index in ascending order
stays so, hence holds the key once. -/
theorem Set_then_Get (k : kvStore) (key : Key) (v : Bytes) (f : DbFaults)
    (hlen : key.length = 32) (hok : (k.Set key v f).2 = none) :
    (∀ f2 : DbFaults, f2.get = none → f2.close = none →
      (k.Set key v f).1.Get key f2 = (some v, none)) ∧
    (∀ x, x ≠ key → dbLookup (k.Set key v f).1.db x = dbLookup k.db x) ∧
    (f.get = none →
      (dbLookup k.db key = none →
        (k.Set key v f).1.art = artInsert k.art key ∧ key ∈ (k.Set key v f).1.art) ∧
      (dbLookup k.db key ≠ none → (k.Set key v f).1.art = k.art)) ∧
    (f.get ≠ none → (k.Set key v f).1.art = k.art) ∧
    (artSorted k.art → artSorted (k.Set key v f).1.art) := by
  have hw : f.write = none := (Set_error_eq_none_iff k key v f).mp hok
  refine ⟨?_, ?_, ?_, ?_, ?_⟩
  · intro f2 hg hc
    simp [kvStore.Get, hlen, engineGet, pebbleGet, closerClose, hg, hc, kvStore.Set,
      pebbleSet, hw, dbLookup_dbPut]
  · intro x hx
    simp [kvStore.Set, pebbleSet, hw, dbLookup_dbPut, Ne.symm hx]
  · intro hg
    constructor
    · intro habs
      simp [kvStore.Set, pebbleGet, hg, habs, mem_artInsert]
    · intro hpres
      cases hl : dbLookup k.db key with
      | none => exact absurd hl hpres
      | some w => simp [kvStore.Set, pebbleGet, hg, hl]
  · intro hg
    cases hc : f.get with
    | none => exact absurd hc hg
    | some c => simp [kvStore.Set, pebbleGet, hc]
  · intro hs
    simp only [kvStore.Set]
    cases pebbleGet k.db key f with
    | ok w => exact hs
    | error e =>
      simp only []
      split
      · exact artSorted_artInsert k.art key hs
      · exact hs

/-- C9 amended, at the empty store and `fullKey`. -/
theorem Set_then_Get_witness :
    fullKey.length = 32 ∧ (kvStore.empty.Set fullKey [7] noFaults).2 = none ∧
    (kvStore.empty.Set fullKey [7] noFaults).1.Get fullKey noFaults = (some [7], none) ∧
    (kvStore.empty.Set fullKey [7] noFaults).1.art = artInsert kvStore.empty.art fullKey :=
  ⟨by decide, by decide,
   (Set_then_Get kvStore.empty fullKey [7] noFaults (by decide) (by decide)).1
     noFaults rfl rfl,
   ((Set_then_Get kvStore.empty fullKey [7] noFaults (by decide) (by decide)).2.2.1
     rfl).1 (by decide) |>.1⟩

/-! ## C10: `Delete` -/

theorem engineGet_ne_multiplePairsFound (db : DB) (r : Key) (f : DbFaults) :
    (engineGet db r f).2 ≠ some Err.multiplePairsFound := by
  unfold engineGet pebbleGet closerClose
  cases f.get with
  | some c => simp
  | none =>
    cases dbLookup db r with
    | none => simp
    | some v => cases f.close <;> simp

theorem deleteAt_ne_multiplePairsFound (k : kvStore) (r : Key) (f : DbFaults) :
    (deleteAt k r f).2 ≠ some Err.multiplePairsFound := by
  unfold deleteAt pebbleDelete
  cases f.write <;> simp

theorem deleteAt_effect (k : kvStore) (r : Key) (f : DbFaults) :
    (f.write = none →
      (deleteAt k r f).2 = none ∧
      ∀ x, dbLookup (deleteAt k r f).1.db x = if x = r then none else dbLookup k.db x) ∧
    (f.get = none → r ≠ [] → (∀ x ∈ k.art, (dbLookup k.db x).isSome = true) →
      ∀ x, x ∈ (deleteAt k r f).1.art ↔ x ∈ k.art ∧ x ≠ r) ∧
    (f.get ≠ none → (deleteAt k r f).1.art = k.art) ∧
    (r = [] → (deleteAt k r f).1.art = k.art) := by
  refine ⟨fun hwrite => ⟨?_, ?_⟩, fun hget hr hsound => ?_, fun hget => ?_, fun hr => ?_⟩
  · simp [deleteAt, pebbleDelete, hwrite]
  · intro x
    simp only [deleteAt, pebbleDelete, hwrite, dbLookup_dbErase]
    by_cases hx : x = r
    · simp [hx]
    · simp [hx, Ne.symm hx]
  · intro x
    simp only [deleteAt, pebbleGet, hget]
    cases hl : dbLookup k.db r with
    | some w => simp [mem_artDelete _ _ _ hr]
    | none =>
      simp only []
      constructor
      · intro hx
        refine ⟨hx, ?_⟩
        intro e
        subst e
        have := hsound x hx
        rw [hl] at this
        simp at this
      · exact fun h => h.1
  · cases hc : f.get with
    | none => exact absurd hc hget
    | some c => simp [deleteAt, pebbleGet, hc]
  · subst hr
    simp only [deleteAt]
    cases pebbleGet k.db [] f <;> simp [artDelete_nil]

/-- C10, the claim refuted.  At `sampleStore` the key `b`, shorter than 32
bytes, is extended by one index key, so neither `Get` nor `Delete` refuses it;
a `Delete` whose engine read fails with an error other than "not found" and
whose engine write succeeds returns nil, removes `b` from the engine and leaves
it in the index.  And without any engine error: on the store holding the empty
key alone, `Delete` of the empty key returns nil, removes the key from the
engine and leaves it in the index. -/
theorem Delete_removal_counterexample :
    ((ofString "b").length < 32 ∧
      resolvedKey sampleStore.art (ofString "b") = ofString "b" ∧
      (sampleStore.Get (ofString "b") ⟨some 5, none, none⟩).2
        ≠ some Err.multiplePairsFound ∧
      sampleStore.Delete (ofString "b") ⟨some 5, none, none⟩
        = (⟨[(ofString "ab", [1]), (ofString "ac", [2])],
            [ofString "ab", ofString "ac", ofString "b"]⟩, none) ∧
      ofString "b" ∈ (sampleStore.Delete (ofString "b") ⟨some 5, none, none⟩).1.art) ∧
    (([] : Key).length < 32 ∧
      resolvedKey emptyKeyStore.art [] = [] ∧
      emptyKeyStore.Get [] noFaults = (some [1], none) ∧
      emptyKeyStore.Delete [] noFaults = (⟨[], [[]]⟩, none) ∧
      [] ∈ (emptyKeyStore.Delete [] noFaults).1.art) := by
  decide

/-- C10, amended.  For a key shorter than 32 bytes and a duplicate-free index,
`Delete` fails with `ErrMultiplePairsFound` exactly when `Get` on the same key
does, which is exactly when two distinct index keys extend the key, and it then
leaves the store as it was.  Otherwise `Get` reads the engine at the resolved
key, and `Delete` removes exactly that key: from the engine, with success,
when the engine write reports no error; from the index, when the engine read
reports no error of its own, the resolved key is not empty and the engine
holds every index key.  When the engine read fails with an error of its own,
or the resolved key is empty, the index is left as it was. -/
theorem Delete_resolves_like_Get (k : kvStore) (key : Key) (f : DbFaults)
    (hlen : key.length < 32) (hnd : k.art.Nodup) :
    ((k.Delete key f).2 = some Err.multiplePairsFound ↔
      (k.Get key f).2 = some Err.multiplePairsFound) ∧
    ((k.Delete key f).2 = some Err.multiplePairsFound ↔
      ∃ a b, a ∈ k.art ∧ b ∈ k.art ∧ a ≠ b ∧ key <+: a ∧ key <+: b) ∧
    ((k.Delete key f).2 = some Err.multiplePairsFound → (k.Delete key f).1 = k) ∧
    ((k.Delete key f).2 ≠ some Err.multiplePairsFound →
      k.Get key f = engineGet k.db (resolvedKey k.art key) f ∧
      (f.write = none →
        (k.Delete key f).2 = none ∧
        ∀ x, dbLookup (k.Delete key f).1.db x
          = if x = resolvedKey k.art key then none else dbLookup k.db x) ∧
      (f.get = none → resolvedKey k.art key ≠ [] →
        (∀ x ∈ k.art, (dbLookup k.db x).isSome = true) →
        ∀ x, x ∈ (k.Delete key f).1.art ↔ x ∈ k.art ∧ x ≠ resolvedKey k.art key) ∧
      (f.get ≠ none → (k.Delete key f).1.art = k.art) ∧
      (resolvedKey k.art key = [] → (k.Delete key f).1.art = k.art)) := by
  have hmem := mem_extending k.art key
  have hnd2 : (extending k.art key).Nodup := hnd.filter _
  have htwo := extending_two k.art key
  have hD : k.Delete key f =
      match extending k.art key with
      | _ :: _ :: _ => (k, some Err.multiplePairsFound)
      | _ => deleteAt k (resolvedKey k.art key) f := by
    simp only [kvStore.Delete, hlen, if_true, scan_from_zero, resolvedKey]
    rcases extending k.art key with _ | ⟨a, _ | ⟨b, rest⟩⟩ <;> simp
  have hG : k.Get key f =
      match extending k.art key with
      | _ :: _ :: _ => (none, some Err.multiplePairsFound)
      | _ => engineGet k.db (resolvedKey k.art key) f := by
    simp only [kvStore.Get, hlen, if_true, scan_from_zero, resolvedKey]
    rcases extending k.art key with _ | ⟨a, _ | ⟨b, rest⟩⟩ <;> simp
  rw [hD, hG]
  generalize resolvedKey k.art key = r
  have hdel := deleteAt_ne_multiplePairsFound k r f
  have hget := engineGet_ne_multiplePairsFound k.db r f
  have heff := deleteAt_effect k r f
  generalize extending k.art key = l at hmem hnd2 htwo
  match l, hmem, hnd2, htwo with
  | [], _, _, htwo =>
    refine ⟨by simp [hdel, hget], ?_, by simp [hdel],
      fun _ => ⟨rfl, heff.1, heff.2.1, heff.2.2.1, heff.2.2.2⟩⟩
    simp only [hdel, false_iff]
    rintro ⟨a, b, ha, hb, hab, hpa, hpb⟩
    obtain ⟨x, y, rest, h⟩ := htwo a b ha hb hab hpa hpb
    simp at h
  | [c], _, _, htwo =>
    refine ⟨by simp [hdel, hget], ?_, by simp [hdel],
      fun _ => ⟨rfl, heff.1, heff.2.1, heff.2.2.1, heff.2.2.2⟩⟩
    simp only [hdel, false_iff]
    rintro ⟨a, b, ha, hb, hab, hpa, hpb⟩
    obtain ⟨x, y, rest, h⟩ := htwo a b ha hb hab hpa hpb
    simp at h
  | a :: b :: rest, hmem, hnd2, _ =>
    refine ⟨by simp, ?_, by simp, fun h => absurd rfl h⟩
    simp only [true_iff]
    have ha := (hmem a).mp (by simp)
    have hb := (hmem b).mp (by simp)
    refine ⟨a, b, ha.1, hb.1, ?_, ha.2, hb.2⟩
    intro e
    subst e
    simp at hnd2

/-- C10 amended, at `sampleStore`: the prefix `a` is refused as by `Get` and
the store is left as it was; the key `b` is removed from the engine and from
the index, which then holds the keys other than `b`. -/
theorem Delete_resolves_like_Get_witness :
    ((ofString "a").length < 32 ∧ (ofString "b").length < 32 ∧ sampleStore.art.Nodup) ∧
    sampleStore.Delete (ofString "a") noFaults = (sampleStore, some Err.multiplePairsFound) ∧
    sampleStore.Delete (ofString "b") noFaults
      = (⟨[(ofString "ab", [1]), (ofString "ac", [2])], [ofString "ab", ofString "ac"]⟩,
          none) ∧
    ((sampleStore.Delete (ofString "a") noFaults).2 = some Err.multiplePairsFound ↔
      (sampleStore.Get (ofString "a") noFaults).2 = some Err.multiplePairsFound) ∧
    (∀ x, x ∈ (sampleStore.Delete (ofString "b") noFaults).1.art ↔
      x ∈ sampleStore.art ∧ x ≠ resolvedKey sampleStore.art (ofString "b")) :=
  ⟨by decide, by decide, by decide,
   (Delete_resolves_like_Get sampleStore (ofString "a") noFaults (by decide) (by decide)).1,
   ((Delete_resolves_like_Get sampleStore (ofString "b") noFaults (by decide)
     (by decide)).2.2.2 (by decide)).2.2.1 rfl (by decide) (by decide)⟩

/-! ## C11: `ExecuteScript` after `DeleteScript` -/

theorem HasKeyPrefix_full_absent (k : kvStore) (key : Key) (f : DbFaults)
    (hlen : ¬ key.length < 32) (habs : dbLookup k.db key = none) :
    k.HasKeyPrefix key f = (key, false) := by
  simp only [kvStore.HasKeyPrefix, hlen, if_false, kvStore.Get, engineGet, pebbleGet, habs]
  cases f.get <;> rfl

theorem DeleteScript_success (validate : Key → Bool) (s : kvStore) (k : Key)
    (f1 f2 : DbFaults) (hlen : ¬ k.length < 32)
    (hdel : (HephaestusService.DeleteScript validate s k f1 f2).2 = none) :
    (HephaestusService.DeleteScript validate s k f1 f2).1.db = dbErase s.db k := by
  unfold HephaestusService.DeleteScript at hdel ⊢
  by_cases hv : validate k = true
  · by_cases he : (LuaManager.Exists s k f1).2 = true
    · simp only [hv, he, Bool.not_true, Bool.false_eq_true, if_false, LuaManager.Remove,
        kvStore.Delete, hlen, deleteAt, pebbleDelete] at hdel ⊢
      cases hw : f2.write with
      | none => rfl
      | some c => rw [hw] at hdel; simp at hdel
    · simp [hv, he] at hdel
  · simp [hv] at hdel

/-- C11.  For an id `k` of 32 bytes: after the worker of `DeleteScript` has
succeeded on `k`, `HasKeyPrefix k` reports `exist = false`, and the worker of
`ExecuteScript` on `k`, its request passing validation, fails with
`ScriptNotFound` whatever the arguments and whatever the engine reports. -/
theorem Execute_after_Delete {Proto : Type} (lib : RunLib Proto)
    (validateDel : Key → Bool) (validateExec : Key → List AnyPb → Bool)
    (s : kvStore) (w : World) (k : Key) (args : List AnyPb) (f1 f2 f3 f4 : DbFaults)
    (hlen : k.length = 32)
    (hdel : (HephaestusService.DeleteScript validateDel s k f1 f2).2 = none)
    (hval : validateExec k args = true) :
    (HephaestusService.DeleteScript validateDel s k f1 f2).1.HasKeyPrefix k f3 = (k, false) ∧
    HephaestusService.ExecuteScript lib validateExec
        (HephaestusService.DeleteScript validateDel s k f1 f2).1 w k args f3 f4
      = (w, none, some Err.scriptNotFound) := by
  have hl : ¬ k.length < 32 := by omega
  have hdb := DeleteScript_success validateDel s k f1 f2 hl hdel
  have habs : dbLookup (HephaestusService.DeleteScript validateDel s k f1 f2).1.db k = none := by
    rw [hdb, dbLookup_dbErase]; simp
  have hh := HasKeyPrefix_full_absent _ k f3 hl habs
  refine ⟨hh, ?_⟩
  simp [HephaestusService.ExecuteScript, hval, LuaManager.Exists, hh]

/-- C11 at `scriptStore`: delete `fullKey`, then execute it. -/
theorem Execute_after_Delete_witness :
    fullKey.length = 32 ∧
    (HephaestusService.DeleteScript (fun _ => true) scriptStore fullKey noFaults noFaults).2
      = none ∧
    (HephaestusService.DeleteScript (fun _ => true) scriptStore fullKey noFaults
      noFaults).1.HasKeyPrefix fullKey noFaults = (fullKey, false) ∧
    HephaestusService.ExecuteScript sampleRunLib (fun _ _ => true)
        (HephaestusService.DeleteScript (fun _ => true) scriptStore fullKey noFaults
          noFaults).1 World.init fullKey [] noFaults noFaults
      = (World.init, none, some Err.scriptNotFound) :=
  ⟨by decide, by decide,
   Execute_after_Delete sampleRunLib (fun _ => true) (fun _ _ => true) scriptStore
     World.init fullKey [] noFaults noFaults noFaults noFaults (by decide) (by decide) rfl⟩

/-! ## C12: the error for an ambiguous prefix -/

theorem Get_of_two (k : kvStore) (key : Key) (f : DbFaults) (hlen : key.length < 32)
    (x y : Key) (rest : List Key) (h : extending k.art key = x :: y :: rest) :
    k.Get key f = (none, some Err.multiplePairsFound) := by
  simp [kvStore.Get, hlen, scan_from_zero, h]

theorem Delete_of_two (k : kvStore) (key : Key) (f : DbFaults) (hlen : key.length < 32)
    (x y : Key) (rest : List Key) (h : extending k.art key = x :: y :: rest) :
    k.Delete key f = (k, some Err.multiplePairsFound) := by
  simp [kvStore.Delete, hlen, scan_from_zero, h]

theorem HasKeyPrefix_of_cons (k : kvStore) (key : Key) (f : DbFaults)
    (hlen : key.length < 32) (x : Key) (rest : List Key)
    (h : extending k.art key = x :: rest) :
    k.HasKeyPrefix key f = (x, true) := by
  simp only [kvStore.HasKeyPrefix, hlen, if_true, scan_first, h]

/-- C12, the claim refuted: at `twoScriptStore`, whose two ids extend `01`,
the workers of `ExecuteScript` and of `DeleteScript` called with the id `01`
return the store's `ErrMultiplePairsFound`, which is not an `InvalidParam`. -/
theorem ambiguous_id_error_counterexample :
    (HephaestusService.ExecuteScript sampleRunLib (fun _ _ => true) twoScriptStore
        World.init (ofString "01") [] noFaults noFaults).2.2
      = some Err.multiplePairsFound ∧
    (HephaestusService.DeleteScript (fun _ => true) twoScriptStore (ofString "01") noFaults
        noFaults).2 = some Err.multiplePairsFound ∧
    Err.multiplePairsFound ≠ Err.invalidParam := by
  refine ⟨?_, by decide, by decide⟩
  have h1 : twoScriptStore.HasKeyPrefix (ofString "01") noFaults = (fullKey, true) := by
    decide
  have h2 : twoScriptStore.Get (ofString "01") noFaults
      = (none, some Err.multiplePairsFound) := by
    decide
  simp [HephaestusService.ExecuteScript, LuaManager.Exists, h1, ConvertFromProto,
    LuaManager.Execute, h2]

/-- C12, amended.  When the id given to `ExecuteScript` or `DeleteScript` is
shorter than 32 bytes and two distinct index keys extend it, the request
passing validation and its arguments converting, the error returned is the
store's `ErrMultiplePairsFound` itself; nothing is executed and the store is
left as it was. -/
theorem ambiguous_id_returns_store_error {Proto : Type} (lib : RunLib Proto)
    (validateDel : Key → Bool) (validateExec : Key → List AnyPb → Bool)
    (s : kvStore) (w : World) (id : Key) (args : List AnyPb) (f1 f2 : DbFaults)
    (hlen : id.length < 32)
    (htwo : ∃ a b, a ∈ s.art ∧ b ∈ s.art ∧ a ≠ b ∧ id <+: a ∧ id <+: b)
    (hvd : validateDel id = true) (hve : validateExec id args = true)
    (hargs : (ConvertFromProto args []).2 = none) :
    HephaestusService.ExecuteScript lib validateExec s w id args f1 f2
      = (w, none, some Err.multiplePairsFound) ∧
    HephaestusService.DeleteScript validateDel s id f1 f2
      = (s, some Err.multiplePairsFound) := by
  obtain ⟨a, b, ha, hb, hab, hpa, hpb⟩ := htwo
  obtain ⟨x, y, rest, hxy⟩ := extending_two s.art id a b ha hb hab hpa hpb
  have hex := HasKeyPrefix_of_cons s id f1 hlen x (y :: rest) hxy
  have hget := Get_of_two s id f2 hlen x y rest hxy
  have hdel := Delete_of_two s id f2 hlen x y rest hxy
  constructor
  · unfold HephaestusService.ExecuteScript
    simp only [hve, LuaManager.Exists, hex, Bool.not_true, Bool.false_eq_true, if_false]
    rcases hc : ConvertFromProto args [] with ⟨vals, e⟩
    rw [hc] at hargs
    simp only at hargs
    subst hargs
    simp [LuaManager.Execute, hget]
  · simp [HephaestusService.DeleteScript, hvd, LuaManager.Exists, hex, LuaManager.Remove,
      hdel]

/-- C12 amended, at `twoScriptStore` and the id `01`. -/
theorem ambiguous_id_returns_store_error_witness :
    (ofString "01").length < 32 ∧
    (∃ a b, a ∈ twoScriptStore.art ∧ b ∈ twoScriptStore.art ∧ a ≠ b ∧
      ofString "01" <+: a ∧ ofString "01" <+: b) ∧
    HephaestusService.ExecuteScript sampleRunLib (fun _ _ => true) twoScriptStore World.init
        (ofString "01") [] noFaults noFaults
      = (World.init, none, some Err.multiplePairsFound) ∧
    HephaestusService.DeleteScript (fun _ => true) twoScriptStore (ofString "01") noFaults
        noFaults = (twoScriptStore, some Err.multiplePairsFound) :=
  ⟨by decide, ⟨fullKey, fullKey2, by decide⟩,
   ambiguous_id_returns_store_error sampleRunLib (fun _ => true) (fun _ _ => true)
     twoScriptStore World.init (ofString "01") [] noFaults noFaults (by decide)
     ⟨fullKey, fullKey2, by decide⟩ rfl rfl rfl⟩

/-! ## C13: the values returned by `RunBytecode` -/

theorem theseLoad_store_same (t : These) (k : VM) (v : Option GlobalThis) :
    theseLoad (storeGlobalThis t k v) k = some v := by
  induction t with
  | nil => simp [storeGlobalThis, theseLoad]
  | cons hd tl ih =>
    obtain ⟨a, g⟩ := hd
    by_cases h : a = k
    · simp [storeGlobalThis, theseLoad, h]
    · simp [storeGlobalThis, theseLoad, h, ih]

theorem thisReturns_of_loaded (h : HostLib) (t : These) (L : VM) (c : List LValue)
    (g : GlobalThis) (hg : theseLoad t L = some (some g)) :
    thisReturns h t L c =
      match goTypeArgs h c [] with
      | .ret r => .ret (storeGlobalThis t L (some ⟨g.Args, r⟩))
      | .panic p => .panic p := by
  unfold thisReturns
  cases goTypeArgs h c [] with
  | panic p => rfl
  | ret r => simp [hg, loadGlobalThis]

theorem applyCalls_load (h : HostLib) (L : VM) (calls : List (List LValue)) :
    ∀ (t : These) (a r0 : List HostValue), theseLoad t L = some (some ⟨a, r0⟩) →
      loadGlobalThis (applyCalls h L calls t) L
        = some ⟨a, ((calls.filterMap (completed h)).getLast?).getD r0⟩ := by
  induction calls with
  | nil =>
    intro t a r0 ht
    simp [applyCalls, loadGlobalThis, ht]
  | cons c rest ih =>
    intro t a r0 ht
    have hr := thisReturns_of_loaded h t L c ⟨a, r0⟩ ht
    simp only [applyCalls, hr]
    cases hc : goTypeArgs h c [] with
    | panic p =>
      have : completed h c = none := by simp [completed, hc]
      simp only [List.filterMap_cons, this]
      exact ih t a r0 ht
    | ret r =>
      have hcomp : completed h c = some r := by simp [completed, hc]
      simp only [List.filterMap_cons, hcomp]
      rw [ih _ a r (theseLoad_store_same t L _)]
      simp [List.getLast?_cons]

theorem goTypeArgs_ret_iff (h : HostLib) (c : List LValue) :
    ∀ (acc l : List HostValue), goTypeArgs h c acc = .ret l ↔
      ∃ conv, l = acc ++ conv ∧ List.Forall₂ (fun v x => goType h v = .ret x) c conv := by
  induction c with
  | nil =>
    intro acc l
    simp only [goTypeArgs, Outcome.ret.injEq]
    constructor
    · intro e; exact ⟨[], by simp [e], List.Forall₂.nil⟩
    · rintro ⟨conv, hl, hf⟩
      cases hf
      simp [hl]
  | cons v rest ih =>
    intro acc l
    simp only [goTypeArgs]
    cases hv : goType h v with
    | panic p =>
      simp only []
      constructor
      · intro e; cases e
      · rintro ⟨conv, _, hf⟩
        cases hf with
        | cons hx _ => rw [hv] at hx; cases hx
    | ret x =>
      simp only []
      rw [ih]
      constructor
      · rintro ⟨conv, hl, hf⟩
        exact ⟨x :: conv, by simp [hl], List.Forall₂.cons hv hf⟩
      · rintro ⟨conv, hl, hf⟩
        cases hf with
        | cons hx hf2 =>
          rename_i y ys
          rw [hv] at hx
          cases hx
          exact ⟨ys, by simp [hl], hf2⟩

/-- C13.  For a run of a stored script that decodes and whose protected call
returns without an error: `RunBytecode` returns no error, and the returned list
is the conversion of the arguments of the last call of `this.returns` that the
script completed, the empty list when there is none.  That conversion is, in
order, `goType` of each argument.  The values returned by the top-level
function take no part. -/
theorem RunBytecode_returns {Proto : Type} (lib : RunLib Proto) (w : World) (b : Bytes)
    (args : List HostValue) (proto : Proto) (run : ScriptRun)
    (hdec : lib.decode b = .ok proto) (hrun : lib.pcall proto args = .ret run)
    (herr : run.err = none) :
    (RunBytecode lib w b args).2.2 = none ∧
    (RunBytecode lib w b args).2.1
      = ((run.calls.filterMap (completed lib.host)).getLast?).getD [] ∧
    (∀ c conv, completed lib.host c = some conv ↔
      List.Forall₂ (fun v x => goType lib.host v = .ret x) c conv) := by
  have hload := applyCalls_load lib.host (some w.fresh) run.calls
    (storeGlobalThis w.these (some w.fresh) (some ⟨args, []⟩)) args []
    (theseLoad_store_same _ _ _)
  refine ⟨?_, ?_, ?_⟩
  · simp [RunBytecode, hdec, hrun, herr, hload]
  · simp [RunBytecode, hdec, hrun, herr, hload]
  · intro c conv
    unfold completed
    have := goTypeArgs_ret_iff lib.host c [] conv
    cases hc : goTypeArgs lib.host c [] with
    | panic p =>
      rw [hc] at this
      constructor
      · intro e; cases e
      · intro hf
        have := this.mpr ⟨conv, by simp, hf⟩
        cases this
    | ret l =>
      rw [hc] at this
      simp only [Option.some.injEq]
      constructor
      · intro e
        subst e
        obtain ⟨conv2, hl, hf⟩ := this.mp rfl
        simp at hl
        rw [hl]; exact hf
      · intro hf
        have := this.mpr ⟨conv, by simp, hf⟩
        cases this
        rfl

/-- C13 at `sampleRunLib`: the script calls `this.returns(1)`, then
`this.returns(2, "x")`, and returns 7; the result is `[2, "x"]`. -/
theorem RunBytecode_returns_witness :
    (RunBytecode sampleRunLib World.init [] []).2.2 = none ∧
    (RunBytecode sampleRunLib World.init [] []).2.1 = [.int64 2, .str "x"] := by
  have h := RunBytecode_returns sampleRunLib World.init [] [] () sampleRun rfl rfl rfl
  refine ⟨h.1, ?_⟩
  rw [h.2.1]
  simp [sampleRunLib, sampleRun, sampleHost, completed, goTypeArgs, goType, F64.toInt64]

/-! ## C14: when `vmPool.Get` suspends -/

/-- The method `Get` suspends exactly when the idle VMs and the running VMs
together reach the limit. -/
theorem Get_waits_iff (p : vmPool) (w : World) :
    (∃ q, p.Get w = .waits q) ↔ (p.saved.length : Int) + p.running ≥ p.limit := by
  unfold vmPool.Get
  by_cases h : (p.saved.length : Int) + p.running ≥ p.limit
  · simp [h]
  · simp only [h, if_false, iff_false]
    rintro ⟨q, hq⟩
    split at hq <;> cases hq

theorem acquireAll_fresh (n : Nat) :
    ∀ (k : Nat) (t : These) (c : List Nat), (k : Int) + n ≤ 256 →
      acquireAll n ⟨[], 256, 0, k⟩ ⟨t, c, k⟩
        = some (⟨[], 256, 0, k + n⟩, ⟨t, c, k + n⟩, (List.range' k n).map some) := by
  induction n with
  | zero => intro k t c _; simp [acquireAll]
  | succ n ih =>
    intro k t c hk
    have h1 : ¬ ((0 : Int) + (k : Int) ≥ 256) := by omega
    have h2 := ih (k + 1) t c (by push_cast; omega)
    simp only [acquireAll, vmPool.Get, List.length_nil, Nat.cast_zero, h1, if_false, if_true,
      vmPool.New]
    have e1 : ((k : Int) + 1) = ((k + 1 : Nat) : Int) := by push_cast; rfl
    rw [e1, h2]
    simp [List.range'_succ, Nat.add_assoc, Nat.add_comm 1 n]
    omega

theorem releaseAll_idle (vms : List VM) :
    ∀ (sv : List VM) (r : Int),
      releaseAll vms ⟨sv, 256, 0, r⟩ = ⟨sv ++ vms, 256, 0, r - vms.length⟩ := by
  induction vms with
  | nil => intro sv r; simp [releaseAll]
  | cons vm rest ih =>
    intro sv r
    simp only [releaseAll, vmPool.Put, lt_self_iff_false, gt_iff_lt, if_false, ih]
    simp
    omega

/-- C14, the defect.  From the new pool, 256 calls of `Get` return at once and
256 calls of `Put` give the VMs back: the pool then holds 256 idle VMs and none
is running.  The next `Get` suspends, although `running = 0` is below the limit
and idle VMs are at hand. -/
theorem Get_waits_with_idle_VMs :
    (∃ p1 w1 vms, acquireAll 256 NewVMPool World.init = some (p1, w1, vms) ∧
      releaseAll vms p1 = fullIdlePool) ∧
    fullIdlePool.running < fullIdlePool.limit ∧
    fullIdlePool.saved.length = 256 ∧
    ∀ w, fullIdlePool.Get w = .waits ⟨fullIdlePool.saved, 256, 1, 0⟩ := by
  refine ⟨?_, by decide, by simp [fullIdlePool], ?_⟩
  · have h := acquireAll_fresh 256 0 [] [] (by norm_num)
    refine ⟨_, _, _, h, ?_⟩
    rw [releaseAll_idle]
    simp [fullIdlePool, List.range_eq_range']
  · intro w
    simp [vmPool.Get, fullIdlePool]

/-! ## C15: the invocation context when the VM is put back -/

/-- C15, the defect.  In every run of `RunString`, when the deferred
`p.Put(vm)` has returned the VM is in the idle list while `globalThese` still
holds for it the invocation context with the arguments of the run; nil is
stored for the VM only afterwards, and the entry stays in the map. -/
theorem RunString_context_after_Put (h : HostLib)
    (doString : String → List HostValue → Outcome ScriptRun)
    (p : vmPool) (w : World) (str : String) (args : List HostValue) (r : RunStringRun)
    (hr : p.RunStringOn h doString w str args = some r) :
    r.vm ∈ r.afterPut.1.saved ∧
    (∃ g, loadGlobalThis r.afterPut.2.these r.vm = some g ∧ g.Args = args) ∧
    theseLoad r.final.2.these r.vm = some none := by
  unfold vmPool.RunStringOn at hr
  cases hg : p.Get w with
  | waits q => rw [hg] at hr; cases hr
  | got vm p1 w1 =>
    rw [hg] at hr
    simp only [Option.some.injEq] at hr
    subst hr
    refine ⟨?_, ?_, theseLoad_store_same _ _ _⟩
    · simp only [vmPool.Put]
      split <;> simp
    · have h1 : theseLoad (storeGlobalThis w1.these vm (some ⟨args, []⟩)) vm
          = some (some ⟨args, []⟩) := theseLoad_store_same _ _ _
      cases vm with
      | none => exact ⟨⟨args, []⟩, by simp [loadGlobalThis, h1], rfl⟩
      | some n =>
        simp only []
        cases hd : doString str args with
        | panic v => exact ⟨⟨args, []⟩, by simp [loadGlobalThis, h1], rfl⟩
        | ret run =>
          have h2 := applyCalls_load h (some n) run.calls _ args [] h1
          simp only [h2]
          exact ⟨_, rfl, rfl⟩

/-- The results of `RunStringOn` on a VM that is not nil are those of
`vmPool.RunString`, the run of `vm.DoString` leaving in `Ret` the conversion of
the last completed call of `this.returns`. -/
theorem RunStringOn_results (h : HostLib)
    (doString : String → List HostValue → Outcome ScriptRun)
    (p : vmPool) (w : World) (str : String) (args : List HostValue) (r : RunStringRun)
    (hr : p.RunStringOn h doString w str args = some r) (hvm : r.vm ≠ none) :
    (some r.ret, r.e) =
      match vmPool.RunString
        (fun s a =>
          match doString s a with
          | .panic v => .panic v
          | .ret run =>
            .ret (run.err, some (((run.calls.filterMap (completed h)).getLast?).getD [])))
        str args with
      | (ret, e) => (some (ret.getD []), e) := by
  unfold vmPool.RunStringOn at hr
  cases hg : p.Get w with
  | waits q => rw [hg] at hr; cases hr
  | got vm p1 w1 =>
    rw [hg] at hr
    simp only [Option.some.injEq] at hr
    subst hr
    cases vm with
    | none => exact absurd rfl hvm
    | some n =>
      simp only [vmPool.RunString]
      cases hd : doString str args with
      | panic v => rfl
      | ret run =>
        have h2 := applyCalls_load h (some n) run.calls
          (storeGlobalThis w1.these (some n) (some ⟨args, []⟩)) args []
          (theseLoad_store_same _ _ _)
        simp only [h2]
        rfl

/-- C15 at the new pool, with a script that calls `this.returns` twice. -/
theorem RunString_context_after_Put_witness :
    ∃ r, NewVMPool.RunStringOn sampleHost (fun _ _ => .ret sampleRun) World.init "s"
        [.str "in"] = some r ∧
      r.vm = some 0 ∧ r.vm ∈ r.afterPut.1.saved ∧
      (∃ g, loadGlobalThis r.afterPut.2.these r.vm = some g ∧ g.Args = [.str "in"]) :=
  ⟨_, rfl, rfl,
   (RunString_context_after_Put sampleHost (fun _ _ => .ret sampleRun) NewVMPool
     World.init "s" [.str "in"] _ rfl).1,
   (RunString_context_after_Put sampleHost (fun _ _ => .ret sampleRun) NewVMPool
     World.init "s" [.str "in"] _ rfl).2.1⟩

/-! ## C16: `Get` after `Shutdown` -/

theorem getD_map_none (l : List VM) (i : Nat) :
    (l.map (fun _ => (none : VM))).getD i none = none := by
  induction l generalizing i with
  | nil => rfl
  | cons a rest ih =>
    cases i with
    | zero => rfl
    | succ j => simp [ih j]

/-- C16, the defect.  After a `Shutdown` that returns, the idle list has the
length it had and holds the nil pointer at every place; when it is not empty
and the pool is below its limit, the next `Get` returns at once and what it
returns is the nil VM taken from the idle list. -/
theorem Get_after_Shutdown (p q : vmPool) (w w1 : World)
    (hs : p.Shutdown w = .ret (q, w1)) (hne : p.saved ≠ [])
    (hroom : (p.saved.length : Int) + p.running < p.limit) :
    q.saved.length = p.saved.length ∧ (∀ v ∈ q.saved, v = none) ∧
    ∃ q2, q.Get w1 = .got none q2 w1 := by
  unfold vmPool.Shutdown at hs
  cases hl : shutdownLoop p.saved w.closed with
  | panic v => rw [hl] at hs; cases hs
  | ret closed =>
    rw [hl] at hs
    simp only [Outcome.ret.injEq, Prod.mk.injEq] at hs
    obtain ⟨hq, hw⟩ := hs
    subst hq
    subst hw
    refine ⟨by simp, by simp, ?_⟩
    have hlen : p.saved.length ≠ 0 := by
      intro e; exact hne (List.length_eq_zero.mp e)
    have h1 : ¬ ((p.saved.length : Int) + p.running ≥ p.limit) := by omega
    simp only [vmPool.Get, List.length_map, h1, hlen, if_false, getD_map_none]
    exact ⟨_, rfl⟩

/-- C16 at a pool holding one idle VM. -/
theorem Get_after_Shutdown_witness :
    oneIdlePool.Shutdown World.init = .ret (⟨[none], 256, 0, 0⟩, ⟨[], [0], 0⟩) ∧
    oneIdlePool.saved ≠ [] ∧
    ∃ q2, vmPool.Get ⟨[none], 256, 0, 0⟩ ⟨[], [0], 0⟩ = .got none q2 ⟨[], [0], 0⟩ :=
  ⟨rfl, by decide,
   (Get_after_Shutdown oneIdlePool ⟨[none], 256, 0, 0⟩ World.init ⟨[], [0], 0⟩ rfl
     (by decide) (by decide)).2.2⟩

/-! ## C17, C18: `luaType` and the struct case of `Any` -/

/-- The kinds that `luaType` passes on: a `float64`, a string and a bool become
the script value of the same kind and value. -/
theorem luaType_passes (x : F64) (str : String) (b : Bool) :
    luaType (.float64 x) = .ret (.lnumber x) ∧
    luaType (.str str) = .ret (.lstring str) ∧
    luaType (.bool b) = .ret (.lbool b) := by
  exact ⟨rfl, rfl, rfl⟩

/-- C17, the defect.  For every `int32`, `int64`, `uint32`, `uint64` and
`float32` value, all of which `Any` produces, `luaType` panics with the
run-time error of the failed assertion `value.(float64)`; so do the `int32`
arguments 2 and 3 of the scenario. -/
theorem luaType_panics_on_wire_numbers (n : Int) (x : F64) :
    luaType (.int32 n) = .panic (.error typeAssertionError) ∧
    luaType (.int64 n) = .panic (.error typeAssertionError) ∧
    luaType (.uint32 n) = .panic (.error typeAssertionError) ∧
    luaType (.uint64 n) = .panic (.error typeAssertionError) ∧
    luaType (.float32 x) = .panic (.error typeAssertionError) ∧
    (Any (.msg (.int32Value 2))).1 = .int32 2 ∧
    luaType (Any (.msg (.int32Value 2))).1 = .panic (.error typeAssertionError) ∧
    luaType (Any (.msg (.int32Value 3))).1 = .panic (.error typeAssertionError) := by
  exact ⟨rfl, rfl, rfl, rfl, rfl, rfl, rfl, rfl⟩

/-- C18, the defect.  For every struct envelope `Any` returns the empty map,
whatever the fields of the struct, and `luaType` turns every map into the
script value nil, not into a table. -/
theorem Any_struct_is_empty_map (fields : List (String × PbValue))
    (m : List (String × HostValue)) :
    Any (.msg (.struct fields)) = (.map [], none) ∧
    luaType (.map m) = .ret .lnil ∧
    Any (.msg (.struct [("a", .str "x")])) = (.map [], none) := by
  exact ⟨rfl, rfl, rfl⟩

/-! ## C19: `Any` after `AsAny` -/

/-- C19, the claim refuted: for a byte sequence and for null `AsAny` returns an
envelope that `Any` refuses with `InvalidParam`. -/
theorem Any_AsAny_counterexample :
    AsAny (.bytes [1, 2]) = (some (.msg (.bytesValue [1, 2])), none) ∧
    Any (.msg (.bytesValue [1, 2])) = (.null, some Err.invalidParam) ∧
    AsAny .null = (some (.msg (.value .null)), none) ∧
    Any (.msg (.value .null)) = (.null, some Err.invalidParam) := by
  exact ⟨rfl, rfl, rfl, rfl⟩

/-- C19, amended.  For every host value `x` that is a string, bool, int32,
int64, uint32, uint64, float32 or float64, `AsAny x` returns an envelope
without an error and `Any` of that envelope returns `x` without an error. -/
theorem Any_AsAny_scalar (x : HostValue) (hx : isWireScalar x) :
    ∃ a, AsAny x = (some a, none) ∧ Any a = (x, none) := by
  cases x <;> first
    | exact ⟨_, rfl, rfl⟩
    | exact False.elim hx

/-- C19 amended, at the `int32` value 5. -/
theorem Any_AsAny_scalar_witness :
    isWireScalar (.int32 5) ∧
    ∃ a, AsAny (.int32 5) = (some a, none) ∧ Any a = (.int32 5, none) :=
  ⟨trivial, Any_AsAny_scalar (.int32 5) trivial⟩

/-! ## C20: integer-valued script numbers on the wire -/

theorem toInt64_intCast (n : Int) (hlo : -2 ^ 63 ≤ n) (hhi : n < 2 ^ 63) :
    F64.toInt64 (.finite (n : ℚ)) = n := by
  have hr : -2 ^ 63 ≤ n ∧ n < 2 ^ 63 := ⟨hlo, hhi⟩
  unfold F64.toInt64
  by_cases h0 : (0 : ℚ) ≤ (n : ℚ)
  · simp only [h0, if_true, Int.floor_intCast]
    exact if_pos hr
  · simp only [h0, if_false, Int.ceil_intCast]
    exact if_pos hr

/-- C20, the claim refuted: the script number 5, which fits an `int32`, goes
through `goType` and `AsAny` to an `int64` envelope, not to an `int32` one. -/
theorem integer_envelope_counterexample :
    goType sampleHost (.lnumber (.finite 5)) = .ret (.int64 5) ∧
    AsAny (.int64 5) = (some (.msg (.int64Value 5)), none) ∧
    AnyPb.msg (.int64Value 5) ≠ AnyPb.msg (.int32Value 5) := by
  refine ⟨?_, rfl, by simp⟩
  have h := toInt64_intCast 5 (by norm_num) (by norm_num)
  simp only [Int.cast_ofNat] at h
  simp [goType, h]

/-- C20, amended.  For every integer-valued script number `n` within the range
of `int64`, `goType` yields the `int64` value `n` and `AsAny` turns it into an
`int64` envelope carrying `n`, whether or not `n` fits an `int32`. -/
theorem integer_number_to_int64_envelope (h : HostLib) (n : Int)
    (hlo : -2 ^ 63 ≤ n) (hhi : n < 2 ^ 63) :
    goType h (.lnumber (.finite (n : ℚ))) = .ret (.int64 n) ∧
    AsAny (.int64 n) = (some (.msg (.int64Value n)), none) := by
  refine ⟨?_, rfl⟩
  simp [goType, toInt64_intCast n hlo hhi]

/-- C20 amended, at the numbers 5 and 2^31. -/
theorem integer_number_to_int64_envelope_witness :
    (goType sampleHost (.lnumber (.finite ((5 : Int) : ℚ))) = .ret (.int64 5) ∧
      AsAny (.int64 5) = (some (.msg (.int64Value 5)), none)) ∧
    (goType sampleHost (.lnumber (.finite (((2 : Int) ^ 31 : Int) : ℚ))) = .ret (.int64 (2 ^ 31)) ∧
      AsAny (.int64 (2 ^ 31)) = (some (.msg (.int64Value (2 ^ 31))), none)) :=
  ⟨integer_number_to_int64_envelope sampleHost 5 (by norm_num) (by norm_num),
   integer_number_to_int64_envelope sampleHost (2 ^ 31) (by norm_num) (by norm_num)⟩

/-! ## C21, C22: `goType` on tables and on the kinds without a host value -/

/-- C21, the defect.  `goType` does turn a table into a map with the
stringified keys and the converted values, but `AsAny` has no case for a map:
every map, whatever its entries, becomes the envelope of the null value. -/
theorem table_becomes_null_envelope (h : HostLib) (m : List (String × HostValue)) :
    AsAny (.map m) = (some (.msg (.value .null)), none) ∧
    goType h (.ltable [(.lstring "a", .lnumber (.finite 1)), (.lstring "b", .lbool true)])
      = .ret (.map [("a", .int64 1), ("b", .bool true)]) ∧
    AsAny (.map [("a", .int64 1), ("b", .bool true)]) = (some (.msg (.value .null)), none) := by
  refine ⟨rfl, ?_, rfl⟩
  have h1 := toInt64_intCast 1 (by norm_num) (by norm_num)
  simp only [Int.cast_one] at h1
  simp [goType, goTypeEntries, mapSet, keyString, h1]

/-- C22, the claim refuted: for a function `goType` returns the text of its
`String()`, a string, which is not the null host value. -/
theorem goType_function_counterexample :
    goType sampleHost (.lfunction "function: 0xc000010000")
      = .ret (.str "function: 0xc000010000") ∧
    HostValue.str "function: 0xc000010000" ≠ HostValue.null := by
  refine ⟨by simp [goType], by simp⟩

/-- C22, amended.  For every script value of kind thread, channel or nil
`goType` returns the null host value; for a function it returns the text of
the function's `String()`; booleans and strings are returned unchanged. -/
theorem goType_simple_kinds (h : HostLib) (b : Bool) (s repr : String) :
    goType h .lthread = .ret .null ∧
    goType h .lchannel = .ret .null ∧
    goType h .lnil = .ret .null ∧
    goType h (.lfunction repr) = .ret (.str repr) ∧
    goType h (.lbool b) = .ret (.bool b) ∧
    goType h (.lstring s) = .ret (.str s) := by
  simp [goType]

/-! ## C23: `this.argc` and `this.argv` -/

theorem toInt64_intCast_out (n : Int) (h : ¬ (-2 ^ 63 ≤ n ∧ n < 2 ^ 63)) :
    F64.toInt64 (.finite (n : ℚ)) = -2 ^ 63 := by
  unfold F64.toInt64
  by_cases h0 : (0 : ℚ) ≤ (n : ℚ)
  · simp only [h0, if_true, Int.floor_intCast]
    exact if_neg h
  · simp only [h0, if_false, Int.ceil_intCast]
    exact if_neg h

theorem topValues_append (stack vals : List LValue) :
    topValues (stack ++ vals) vals.length = vals := by
  simp [topValues]

theorem argvAll_spec (args : List HostValue) :
    ∀ (stack vals : List LValue), List.Forall₂ (fun a v => luaType a = .ret v) args vals →
      argvAll args stack = .ret (stack ++ vals) := by
  induction args with
  | nil =>
    intro stack vals hf
    cases hf
    simp [argvAll]
  | cons a rest ih =>
    intro stack vals hf
    cases hf with
    | cons ha hrest =>
      rename_i v vs
      simp only [argvAll, ha]
      rw [ih _ vs hrest]
      simp

theorem argvPush_spec (args : List HostValue) (hn : (args.length : Int) < 2 ^ 63)
    (idxs : List Int) :
    ∀ (stack vals : List LValue),
      (∀ i ∈ idxs, 1 ≤ i ∧ i ≤ (args.length : Int)) →
      List.Forall₂ (fun i v => luaType (args.getD (i - 1).toNat .null) = .ret v) idxs vals →
      argvPush args (idxs.map numberArg) stack = .ret (stack ++ vals) := by
  induction idxs with
  | nil =>
    intro stack vals _ hf
    cases hf
    simp [argvPush]
  | cons i rest ih =>
    intro stack vals hr hf
    cases hf with
    | cons hi hrest =>
      rename_i v vs
      have hir := hr i (by simp)
      have hpos : F64.toInt64 (.finite (i : ℚ)) = i :=
        toInt64_intCast i (by omega) (by omega)
      simp only [List.map_cons, argvPush, numberArg, CheckInt, hpos, hir, and_self, if_true, hi]
      have := ih (stack ++ [v]) vs (fun j hj => hr j (by simp [hj])) hrest
      simp only [numberArg] at this
      rw [this]
      simp

theorem argvPush_out_of_range (args : List HostValue) (hn : (args.length : Int) < 2 ^ 63)
    (pre : List Int) (i : Int) (post : List Int) (hi : i < 1 ∨ (args.length : Int) < i) :
    ∀ (stack prevals : List LValue),
      (∀ j ∈ pre, 1 ≤ j ∧ j ≤ (args.length : Int)) →
      List.Forall₂ (fun j v => luaType (args.getD (j - 1).toNat .null) = .ret v) pre prevals →
      argvPush args ((pre ++ i :: post).map numberArg) stack = .panic (.error argError) := by
  induction pre with
  | nil =>
    intro stack prevals _ _
    have hbad : ¬ (1 ≤ F64.toInt64 (.finite (i : ℚ)) ∧
        F64.toInt64 (.finite (i : ℚ)) ≤ (args.length : Int)) := by
      by_cases hr : -2 ^ 63 ≤ i ∧ i < 2 ^ 63
      · rw [toInt64_intCast i hr.1 hr.2]; omega
      · rw [toInt64_intCast_out i hr]; omega
    simp only [List.nil_append, List.map_cons, argvPush, numberArg, CheckInt, hbad, if_false]
  | cons j rest ih =>
    intro stack prevals hr hf
    cases hf with
    | cons hj hrest =>
      rename_i v vs
      have hjr := hr j (by simp)
      have hpos : F64.toInt64 (.finite (j : ℚ)) = j :=
        toInt64_intCast j (by omega) (by omega)
      simp only [List.cons_append, List.map_cons, argvPush, numberArg, CheckInt, hpos, hjr,
        and_self, if_true, hj]
      have := ih (stack ++ [v]) vs (fun k hk => hr k (by simp [hk])) hrest
      simp only [numberArg] at this
      exact this

/-- C23.  For an invocation context with inputs `Args` of length `n`:
`this.argc()` returns `n`; `this.argv()` without parameters returns `n`
values, the `j`-th being `luaType(Args[j-1])`; `this.argv(i1, .., ik)` with
`k ≥ 1` and every index within `[1, n]` returns `k` values, the `j`-th being
`luaType(Args[ij-1])`; and an index below 1 or above `n`, the ones before it
being served, raises the argument error. -/
theorem argv_argc (g : GlobalThis) (hn : (g.Args.length : Int) < 2 ^ 63) :
    thisArgc (some g) = .ret [numberArg g.Args.length] ∧
    (∀ vals, List.Forall₂ (fun a v => luaType a = .ret v) g.Args vals →
      thisArgv (some g) [] = .ret vals) ∧
    (∀ (idxs : List Int) vals, idxs ≠ [] →
      (∀ i ∈ idxs, 1 ≤ i ∧ i ≤ (g.Args.length : Int)) →
      List.Forall₂ (fun i v => luaType (g.Args.getD (i - 1).toNat .null) = .ret v) idxs vals →
      thisArgv (some g) (idxs.map numberArg) = .ret vals) ∧
    (∀ (pre : List Int) (i : Int) (post : List Int) prevals,
      (∀ j ∈ pre, 1 ≤ j ∧ j ≤ (g.Args.length : Int)) →
      List.Forall₂ (fun j v => luaType (g.Args.getD (j - 1).toNat .null) = .ret v)
        pre prevals →
      (i < 1 ∨ (g.Args.length : Int) < i) →
      thisArgv (some g) ((pre ++ i :: post).map numberArg) = .panic (.error argError)) := by
  refine ⟨?_, ?_, ?_, ?_⟩
  · simp [thisArgc, numberArg]
  · intro vals hf
    have hlen := hf.length_eq
    simp only [thisArgv, List.length_nil, gt_iff_lt, lt_self_iff_false, if_false,
      argvAll_spec g.Args [] vals hf, List.nil_append]
    rw [hlen]
    have := topValues_append [] vals
    simpa using this
  · intro idxs vals hne hr hf
    have hlen := hf.length_eq
    have hpos : (idxs.map numberArg).length > 0 := by
      cases idxs with
      | nil => exact absurd rfl hne
      | cons a l => simp
    unfold thisArgv
    simp only []
    rw [if_pos hpos, argvPush_spec g.Args hn idxs _ vals hr hf]
    simp only [List.length_map, hlen]
    exact congrArg Outcome.ret (topValues_append _ vals)
  · intro pre i post prevals hr hf hi
    have hpos : ((pre ++ i :: post).map numberArg).length > 0 := by simp
    simp only [thisArgv, hpos, if_true,
      argvPush_out_of_range g.Args hn pre i post hi _ prevals hr hf]

/-- C23 at `sampleThis`, whose inputs are a string, a `float64` and a bool. -/
theorem argv_argc_witness :
    (sampleThis.Args.length : Int) < 2 ^ 63 ∧
    thisArgc (some sampleThis) = .ret [numberArg 3] ∧
    thisArgv (some sampleThis) []
      = .ret [.lstring "a", .lnumber (.finite 2), .lbool true] ∧
    thisArgv (some sampleThis) ([3, 1].map numberArg) = .ret [.lbool true, .lstring "a"] ∧
    thisArgv (some sampleThis) ([1, 4].map numberArg) = .panic (.error argError) :=
  ⟨by simp [sampleThis],
   (argv_argc sampleThis (by simp [sampleThis])).1,
   (argv_argc sampleThis (by simp [sampleThis])).2.1 _
     (.cons rfl (.cons rfl (.cons rfl .nil))),
   (argv_argc sampleThis (by simp [sampleThis])).2.2.1 [3, 1] _ (by simp)
     (by simp [sampleThis]) (.cons rfl (.cons rfl .nil)),
   (argv_argc sampleThis (by simp [sampleThis])).2.2.2 [1] 4 [] [.lstring "a"]
     (by simp [sampleThis]) (.cons rfl .nil) (by simp [sampleThis])⟩

/-! ## C24, C30: `FindScript` and `ScriptIdByPrefix` -/

theorem scan_all (p : Key) (t : List Key) :
    ∀ acc : List Key,
      ForEachPrefix p (fun (keys : List Key) node => (keys ++ [node], true)) t acc
        = acc ++ extending t p := by
  induction t with
  | nil => intro acc; simp [ForEachPrefix, extending]
  | cons hd tl ih =>
    intro acc
    by_cases h : p.isPrefixOf hd
    · simp only [extending] at ih
      simp [ForEachPrefix, extending, h, ih]
    · simp only [extending] at ih
      simp [ForEachPrefix, extending, h, ih]

theorem KeysWithPrefix_eq (k : kvStore) (pfx : Key) :
    k.KeysWithPrefix pfx = extending k.art pfx := by
  simp [kvStore.KeysWithPrefix, scan_all]

theorem extending_nil (t : List Key) : extending t [] = t := by
  simp [extending, List.isPrefixOf]

theorem ScriptIdByPrefix_nonneg (m : kvStore) (pfx : Key) (limit : Int) (h : 0 ≤ limit) :
    LuaManager.ScriptIdByPrefix m pfx limit
      = .ret ((extending m.art pfx).take (min limit.toNat (extending m.art pfx).length)) := by
  simp only [LuaManager.ScriptIdByPrefix, KeysWithPrefix_eq]
  by_cases hgt : limit > ((extending m.art pfx).length : Int)
  · have h1 : ¬ (((extending m.art pfx).length : Int) < 0) := by omega
    have h2 : min limit.toNat (extending m.art pfx).length = (extending m.art pfx).length := by
      omega
    simp [hgt, h2]
  · have h1 : ¬ (limit < 0) := by omega
    have h2 : min limit.toNat (extending m.art pfx).length = limit.toNat := by omega
    simp [hgt, h1, h2]

/-- C24, the defect.  The worker of `FindScript` by the limit of the request.
A limit that is absent or not negative: it returns the first `min(limit, n)`
keys of the index enumeration of the `n` keys that start with the given prefix,
that many ids, each an index key that starts with the prefix; the limit is 10
when the request omits it, and the prefix is empty, every index key being
enumerated, when the request omits it.  A negative limit: it returns no keys,
the slice expression `keys[:limit]` panics with the run-time error of a bound
out of range, whatever the store and the prefix. -/
theorem FindScript_by_limit (s : kvStore) (pfx : Option Key) (limit : Option Int) :
    ((∀ l, limit = some l → 0 ≤ l) →
      HephaestusService.FindScript s pfx limit
        = .ret ((extending s.art (pfx.getD [])).take
            (min (limit.getD 10).toNat (extending s.art (pfx.getD [])).length)) ∧
      ((extending s.art (pfx.getD [])).take
          (min (limit.getD 10).toNat (extending s.art (pfx.getD [])).length)).length
        = min (limit.getD 10).toNat (extending s.art (pfx.getD [])).length ∧
      (∀ id ∈ (extending s.art (pfx.getD [])).take
          (min (limit.getD 10).toNat (extending s.art (pfx.getD [])).length),
        id ∈ s.art ∧ pfx.getD [] <+: id) ∧
      (pfx = none → extending s.art (pfx.getD []) = s.art)) ∧
    (∀ l, limit = some l → l < 0 →
      HephaestusService.FindScript s pfx limit = .panic (.error sliceBoundsError)) := by
  constructor
  · intro hlim
    have hl : 0 ≤ limit.getD 10 := by
      cases limit with
      | none => simp
      | some l => exact hlim l rfl
    refine ⟨?_, ?_, ?_, ?_⟩
    · have := ScriptIdByPrefix_nonneg s (pfx.getD []) (limit.getD 10) hl
      unfold HephaestusService.FindScript
      cases pfx <;> cases limit <;> simpa using this
    · simp
    · intro id hid
      exact (mem_extending s.art _ id).mp (List.mem_of_mem_take hid)
    · intro hp
      subst hp
      exact extending_nil s.art
  · intro l hl hneg
    subst hl
    have h1 : ∀ q : Key, ¬ (l > ((s.KeysWithPrefix q).length : Int)) := by
      intro q
      omega
    cases pfx <;> simp [HephaestusService.FindScript, LuaManager.ScriptIdByPrefix, h1, hneg]

/-- C24 at `sampleStore`: the limit -1, with the empty prefix, panics although
three keys start with it; the prefix `a` with limit 1 and the request without
either field return their keys. -/
theorem FindScript_by_limit_witness :
    HephaestusService.FindScript sampleStore (some []) (some (-1))
      = .panic (.error sliceBoundsError) ∧
    HephaestusService.FindScript sampleStore (some (ofString "a")) (some 1)
      = .ret [ofString "ab"] ∧
    HephaestusService.FindScript sampleStore none none
      = .ret [ofString "ab", ofString "ac", ofString "b"] := by
  have h0 := (FindScript_by_limit sampleStore (some []) (some (-1))).2 (-1) rfl (by decide)
  have h1 := ((FindScript_by_limit sampleStore (some (ofString "a")) (some 1)).1
    (by intro l hl; cases hl; decide)).1
  have h2 := ((FindScript_by_limit sampleStore none none).1 (by intro l hl; cases hl)).1
  refine ⟨h0, h1.trans ?_, h2.trans ?_⟩
  · exact congrArg Outcome.ret (by decide)
  · exact congrArg Outcome.ret (by decide)

/-- C30, the defect.  For every negative limit, whatever the keys,
`ScriptIdByPrefix` panics with the run-time error of a slice expression out of
range, and so does the worker of `FindScript` when the request carries that
limit. -/
theorem ScriptIdByPrefix_negative_limit (m : kvStore) (pfx : Key) (limit : Int)
    (hneg : limit < 0) :
    LuaManager.ScriptIdByPrefix m pfx limit = .panic (.error sliceBoundsError) ∧
    HephaestusService.FindScript m (some pfx) (some limit)
      = .panic (.error sliceBoundsError) := by
  have h1 : ¬ (limit > ((m.KeysWithPrefix pfx).length : Int)) := by omega
  constructor
  · simp [LuaManager.ScriptIdByPrefix, h1, hneg]
  · simp [HephaestusService.FindScript, LuaManager.ScriptIdByPrefix, h1, hneg]

/-- C30 at `sampleStore`, the empty prefix and the limit -1. -/
theorem ScriptIdByPrefix_negative_limit_witness :
    ((-1 : Int) < 0) ∧
    LuaManager.ScriptIdByPrefix sampleStore [] (-1) = .panic (.error sliceBoundsError) ∧
    HephaestusService.FindScript sampleStore (some []) (some (-1))
      = .panic (.error sliceBoundsError) :=
  ⟨by decide, ScriptIdByPrefix_negative_limit sampleStore [] (-1) (by decide)⟩

/-! ## C28: the VM of `RunBytecode` -/

/-- Every run of `RunBytecode` that decodes its bytes makes a VM of its own
with `lua.NewState` and closes it: the VM is neither taken from a pool nor
given back to one. -/
theorem RunBytecode_makes_own_VM {Proto : Type} (lib : RunLib Proto) (w : World)
    (b : Bytes) (args : List HostValue) (proto : Proto) (hdec : lib.decode b = .ok proto) :
    (RunBytecode lib w b args).1.fresh = w.fresh + 1 ∧
    (RunBytecode lib w b args).1.closed = w.fresh :: w.closed := by
  unfold RunBytecode
  simp only [hdec]
  cases lib.pcall proto args with
  | panic v => exact ⟨rfl, rfl⟩
  | ret run =>
    simp only []
    cases run.err with
    | some e => exact ⟨rfl, rfl⟩
    | none =>
      simp only []
      split <;> exact ⟨rfl, rfl⟩

theorem RunBytecode_value {Proto : Type} (lib : RunLib Proto) (w : World) (b : Bytes)
    (args : List HostValue) (proto : Proto) (run : ScriptRun)
    (hdec : lib.decode b = .ok proto) (hrun : lib.pcall proto args = .ret run)
    (herr : run.err = none) :
    (RunBytecode lib w b args).2
      = (((run.calls.filterMap (completed lib.host)).getLast?).getD [], none) := by
  have hload := applyCalls_load lib.host (some w.fresh) run.calls
    (storeGlobalThis w.these (some w.fresh) (some ⟨args, []⟩)) args []
    (theseLoad_store_same _ _ _)
  simp [RunBytecode, hdec, hrun, herr, hload]

/-- C28, the defect.  With the pool full of idle VMs, where every `Get`
suspends, `LuaManager.Execute` still runs the stored script and returns its
values: it runs on a VM made for it by `lua.NewState` and closed afterwards,
and no counter of the pool takes part. -/
theorem Execute_bypasses_pool :
    (∀ w, ∃ q, fullIdlePool.Get w = .waits q) ∧
    (LuaManager.Execute sampleRunLib scriptStore World.init fullKey [] noFaults).2
      = ([.int64 2, .str "x"], none) ∧
    (LuaManager.Execute sampleRunLib scriptStore World.init fullKey [] noFaults).1.fresh = 1 ∧
    (LuaManager.Execute sampleRunLib scriptStore World.init fullKey [] noFaults).1.closed
      = [0] := by
  have hget : scriptStore.Get fullKey noFaults = (some [1, 2, 3], none) := by decide
  have hrun := RunBytecode_value sampleRunLib World.init [1, 2, 3] [] () sampleRun rfl rfl rfl
  have hvm := RunBytecode_makes_own_VM sampleRunLib World.init [1, 2, 3] [] () rfl
  have hconv : ((sampleRun.calls.filterMap (completed sampleRunLib.host)).getLast?).getD []
      = [.int64 2, .str "x"] := by
    simp [sampleRunLib, sampleRun, sampleHost, completed, goTypeArgs, goType, F64.toInt64]
  refine ⟨fun w => (Get_waits_iff fullIdlePool w).mpr (by simp [fullIdlePool]), ?_, ?_, ?_⟩
  · simp only [LuaManager.Execute, hget, RunBytecodeFromByteArray, Option.getD]
    rw [hrun, hconv]
  · simp only [LuaManager.Execute, hget, RunBytecodeFromByteArray, Option.getD]
    exact hvm.1
  · simp only [LuaManager.Execute, hget, RunBytecodeFromByteArray, Option.getD]
    exact hvm.2

/-! ## C25: decimal addition -/

theorem Decimal.toRat_Add (a b : Decimal) :
    (Decimal.Add a b).toRat = a.toRat + b.toRat := by
  have h10 : (10 : ℚ) ≠ 0 := by norm_num
  have key : ∀ (x e : Int), e ≤ x →
      ((10 : ℚ) ^ (x - e).toNat) * (10 : ℚ) ^ e = (10 : ℚ) ^ x := by
    intro x e hxe
    rw [← zpow_natCast, Int.toNat_of_nonneg (by omega), ← zpow_add₀ h10]
    congr 1
    omega
  simp only [Decimal.Add, Decimal.toRat]
  push_cast
  rw [add_mul, mul_assoc, mul_assoc, key a.exp _ (min_le_left _ _),
    key b.exp _ (min_le_right _ _)]

theorem decimalFold_Add (lib : TypeLib) (heap : Nat → UserValue) (args : List LValue) :
    ∀ (acc : Decimal) (ds : List Decimal),
      List.Forall₂ (fun a d => checkAnyDecimalLike lib heap a = .ret d) args ds →
      ∃ r, decimalFold lib heap Decimal.Add acc args = .ret r ∧
        r.toRat = acc.toRat + (ds.map Decimal.toRat).sum := by
  induction args with
  | nil =>
    intro acc ds hf
    cases hf
    exact ⟨acc, rfl, by simp⟩
  | cons a rest ih =>
    intro acc ds hf
    cases hf with
    | cons ha hrest =>
      rename_i d ds2
      obtain ⟨r, hr, hv⟩ := ih (Decimal.Add acc d) ds2 hrest
      refine ⟨r, by simp [decimalFold, ha, hr], ?_⟩
      rw [hv, Decimal.toRat_Add]
      simp [add_assoc]

/-- C25.  For two or more operands, each a decimal user-data, a number or a
decimal string that parses, `__add` returns a decimal whose value is the exact
sum of the operands' values, where a user-data stands for its decimal, a string
for the decimal it parses to and an integer number within `int64` for itself.
The method `string` of a decimal user-data, the sum included once it has become
one, returns the `String()` of its decimal. -/
theorem decimal_add_exact (lib : TypeLib) (heap : Nat → UserValue) (args : List LValue)
    (ds : List Decimal) (h2 : 2 ≤ args.length)
    (hf : List.Forall₂ (fun a d => checkAnyDecimalLike lib heap a = .ret d) args ds) :
    (∃ r, decimalAdd lib heap args = .ret (.decimal r) ∧
      r.toRat = (ds.map Decimal.toRat).sum ∧
      ∀ (p : Nat) (m : Option String),
        decimalString (heapWith heap p (.decimal r)) [.luserdata m p]
          = .ret (.value (.lstring r.String))) ∧
    (∀ n : Int, -2 ^ 63 ≤ n → n < 2 ^ 63 →
      ∃ d, checkAnyDecimalLike lib heap (numberArg n) = .ret d ∧ d.toRat = (n : ℚ)) ∧
    (∀ s d, lib.parseDecimal s = .ok d → checkAnyDecimalLike lib heap (.lstring s) = .ret d) ∧
    (∀ m p d, heap p = .decimal d →
      checkAnyDecimalLike lib heap (.luserdata m p) = .ret d) ∧
    (∀ (heap2 : Nat → UserValue) m p d, heap2 p = .decimal d →
      decimalString heap2 [.luserdata m p] = .ret (.value (.lstring d.String))) := by
  have hstr : ∀ (heap2 : Nat → UserValue) m p d, heap2 p = .decimal d →
      decimalString heap2 [.luserdata m p] = .ret (.value (.lstring d.String)) := by
    intro heap2 m p d hp
    simp [decimalString, checkDecimal, hp]
  refine ⟨?_, ?_, ?_, ?_, hstr⟩
  · match args, ds, hf, h2 with
    | a :: b :: rest, d :: ds2, .cons ha hrest, _ =>
      obtain ⟨r, hr, hv⟩ := decimalFold_Add lib heap (b :: rest) d ds2 hrest
      refine ⟨r, by simp [decimalAdd, performDecimalOp, ha, hr], by simpa using hv, ?_⟩
      intro p m
      exact hstr _ m p r (by simp [heapWith])
  · intro n hlo hhi
    refine ⟨Decimal.NewFromInt n, ?_, by simp [Decimal.NewFromInt, Decimal.toRat]⟩
    simp [checkAnyDecimalLike, numberArg, toInt64_intCast n hlo hhi]
  · intro s d hs
    simp [checkAnyDecimalLike, hs]
  · intro m p d hp
    simp [checkAnyDecimalLike, checkDecimal, hp]

/-- C25 at the scenario: `decimal.new("1.1")` and `decimal.new("2.2")` make the
decimals 1.1 and 2.2; `__add` on them returns the decimal 3.3, the exact sum;
and `string` on the user-data of that result returns the text `3.3`. -/
theorem decimal_add_exact_witness :
    decimalNew sampleTypeLib sampleHeap [.lstring "1.1"] = .ret [.decimal ⟨11, -1⟩] ∧
    decimalNew sampleTypeLib sampleHeap [.lstring "2.2"] = .ret [.decimal ⟨22, -1⟩] ∧
    decimalAdd sampleTypeLib sampleHeap
        [.luserdata (some "decimal") 1, .luserdata (some "decimal") 2]
      = .ret (.decimal ⟨33, -1⟩) ∧
    decimalString (heapWith sampleHeap 8 (.decimal ⟨33, -1⟩)) [.luserdata (some "decimal") 8]
      = .ret (.value (.lstring "3.3")) ∧
    (∃ r, decimalAdd sampleTypeLib sampleHeap
        [.luserdata (some "decimal") 1, .luserdata (some "decimal") 2] = .ret (.decimal r) ∧
      r.toRat = ([Decimal.mk 11 (-1), Decimal.mk 22 (-1)].map Decimal.toRat).sum ∧
      ∀ (p : Nat) (m : Option String),
        decimalString (heapWith sampleHeap p (.decimal r)) [.luserdata m p]
          = .ret (.value (.lstring r.String))) := by
  have h := decimal_add_exact sampleTypeLib sampleHeap
     [.luserdata (some "decimal") 1, .luserdata (some "decimal") 2]
     [⟨11, -1⟩, ⟨22, -1⟩] (by decide) (.cons rfl (.cons rfl .nil))
  have hs : (Decimal.mk 33 (-1)).String = "3.3" := by decide
  refine ⟨rfl, rfl, rfl, ?_, h.1⟩
  have h3 := h.2.2.2.2 (heapWith sampleHeap 8 (.decimal ⟨33, -1⟩)) (some "decimal") 8
    ⟨33, -1⟩ rfl
  rw [hs] at h3
  exact h3

/-! ## C26: `round`, `floor` and `ceil` without a precision -/

/-- C26, the defect.  For every decimal receiver, `round` called without a
precision returns nil, while `floor` and `ceil` called without a precision
return the floored and the ceiled decimal; with a precision `p` within `int32`
all three return the decimal rounded by the library to `p` places. -/
theorem round_without_precision_is_nil (lib : TypeLib) (heap : Nat → UserValue)
    (m : Option String) (p : Nat) (d : Decimal) (places : Int)
    (hd : heap p = .decimal d) (hlo : -2 ^ 31 ≤ places) (hhi : places < 2 ^ 31) :
    decimalRound lib heap [.luserdata m p] = .ret (.value .lnil) ∧
    decimalFloor lib heap [.luserdata m p] = .ret (.decimal (lib.floor d)) ∧
    decimalCeil lib heap [.luserdata m p] = .ret (.decimal (lib.ceil d)) ∧
    decimalRound lib heap [.luserdata m p, numberArg places]
      = .ret (.decimal (lib.round d places)) ∧
    decimalFloor lib heap [.luserdata m p, numberArg places]
      = .ret (.decimal (lib.roundFloor d places)) ∧
    decimalCeil lib heap [.luserdata m p, numberArg places]
      = .ret (.decimal (lib.roundCeil d places)) := by
  have h64 : F64.toInt64 (.finite (places : ℚ)) = places :=
    toInt64_intCast places (by omega) (by omega)
  have h32 : wrapInt32 places = places := by
    unfold wrapInt32
    omega
  refine ⟨?_, ?_, ?_, ?_, ?_, ?_⟩
  · simp [decimalRound, performDecimalRoundingOp]
  · simp [decimalFloor, checkDecimal, hd]
  · simp [decimalCeil, checkDecimal, hd]
  · simp [decimalRound, performDecimalRoundingOp, checkDecimal, hd, numberArg, h64, h32]
  · simp [decimalFloor, performDecimalRoundingOp, checkDecimal, hd, numberArg, h64, h32]
  · simp [decimalCeil, performDecimalRoundingOp, checkDecimal, hd, numberArg, h64, h32]

/-- C26 at the decimal 1.5: `round()` is nil, `floor()` is the decimal 1. -/
theorem round_without_precision_is_nil_witness :
    sampleHeap 3 = .decimal ⟨15, -1⟩ ∧
    decimalRound sampleTypeLib sampleHeap [.luserdata (some "decimal") 3]
      = .ret (.value .lnil) ∧
    decimalFloor sampleTypeLib sampleHeap [.luserdata (some "decimal") 3]
      = .ret (.decimal (sampleTypeLib.floor ⟨15, -1⟩)) :=
  ⟨rfl,
   (round_without_precision_is_nil sampleTypeLib sampleHeap (some "decimal") 3 ⟨15, -1⟩ 2
     rfl (by norm_num) (by norm_num)).1,
   (round_without_precision_is_nil sampleTypeLib sampleHeap (some "decimal") 3 ⟨15, -1⟩ 2
     rfl (by norm_num) (by norm_num)).2.1⟩

/-! ## C27, C29: timestamps and durations -/

/-- The expression `d + t` of a script, with a duration user-data first, is
given by the interpreter to the `__add` of the duration type, which takes the
time user-data for a duration and dereferences nil. -/
theorem duration_plus_time_dispatch (lib : TypeLib) (heap : Nat → UserValue) (p q : Nat)
    (t : Time) (d : Int) (ht : heap p = .time t) (hd : heap q = .duration d) :
    plusMetamethod lib heap (.luserdata (some "duration") q) (.luserdata (some "time") p)
      = .panic (.error nilDereference) ∧
    plusMetamethod lib heap (.luserdata (some "time") p) (.luserdata (some "duration") q)
      = .ret (.time (t.Add d)) := by
  constructor
  · simp [plusMetamethod, durationAdd, checkAnyDurationLike, checkDuration, ht, hd]
  · simp [plusMetamethod, timeAdd, timeAddFormerIsTime, checkAnyTimeLike, checkTime,
      checkAnyDurationLike, checkDuration, addToTime, ht, hd]

/-- C27, the claim refuted: the instants `year2024` and `year1000` are further
apart than the greatest duration, `-` returns the greatest duration for them,
and adding it to `year1000` does not give `year2024`. -/
theorem time_sub_add_counterexample :
    timeSub sampleTypeLib sampleHeap (.luserdata (some "time") 4) (.luserdata (some "time") 6)
      = .ret (.duration maxDuration) ∧
    timeAdd sampleTypeLib sampleHeap (.luserdata (some "time") 6)
        (.luserdata (some "duration") 7)
      = .ret (.time (year1000.Add maxDuration)) ∧
    year1000.Add maxDuration ≠ year2024 := by
  refine ⟨?_, ?_, by decide⟩
  · have h : year2024.Sub year1000 = maxDuration := by decide
    simp [timeSub, checkAnyTimeLike, checkTime, sampleHeap, h]
  · simp [timeAdd, timeAddFormerIsTime, checkAnyTimeLike, checkTime, checkAnyDurationLike,
      checkDuration, addToTime, sampleHeap]

/-- C27, amended.  For every timestamp `t` and duration `d`, both user-data,
the `__add` of the time type called with `(t, d)` or with `(d, t)` returns the
timestamp `t` advanced by `d`; for all timestamps `t` and `t2` its `__sub`
returns the duration `t.Sub t2`, the difference kept within the least and the
greatest duration, so that `t2` advanced by it is the instant `t` whenever the
difference fits a duration. -/
theorem time_add_sub (lib : TypeLib) (heap : Nat → UserValue) (m1 m2 : Option String)
    (p q : Nat) (t : Time) (d : Int) (ht : heap p = .time t) (hd : heap q = .duration d) :
    timeAdd lib heap (.luserdata m1 p) (.luserdata m2 q) = .ret (.time (t.Add d)) ∧
    timeAdd lib heap (.luserdata m2 q) (.luserdata m1 p) = .ret (.time (t.Add d)) ∧
    (∀ (m3 : Option String) (p2 : Nat) (t2 : Time), heap p2 = .time t2 →
      timeSub lib heap (.luserdata m1 p) (.luserdata m3 p2) = .ret (.duration (t.Sub t2)) ∧
      (minDuration ≤ t.ns - t2.ns → t.ns - t2.ns ≤ maxDuration →
        t.Sub t2 = t.ns - t2.ns ∧ t2.Add (t.Sub t2) = t)) := by
  refine ⟨?_, ?_, ?_⟩
  · simp [timeAdd, timeAddFormerIsTime, checkAnyTimeLike, checkTime, checkAnyDurationLike,
      checkDuration, addToTime, ht, hd]
  · simp [timeAdd, checkAnyTimeLike, checkTime, addToTime, ht, hd]
  · intro m3 p2 t2 ht2
    refine ⟨by simp [timeSub, checkAnyTimeLike, checkTime, ht, ht2], ?_⟩
    intro hlo hhi
    have hs : t.Sub t2 = t.ns - t2.ns := by
      unfold Time.Sub
      simp only []
      rw [if_neg (by omega), if_neg (by omega)]
    refine ⟨hs, ?_⟩
    rw [hs]
    cases t
    cases t2
    simp [Time.Add]

/-- C27 amended, at `year2024` and the duration of one hour. -/
theorem time_add_sub_witness :
    sampleHeap 4 = .time year2024 ∧ sampleHeap 5 = .duration 3600000000000 ∧
    timeAdd sampleTypeLib sampleHeap (.luserdata (some "time") 4)
        (.luserdata (some "duration") 5)
      = .ret (.time (year2024.Add 3600000000000)) ∧
    timeAdd sampleTypeLib sampleHeap (.luserdata (some "duration") 5)
        (.luserdata (some "time") 4)
      = .ret (.time (year2024.Add 3600000000000)) :=
  ⟨rfl, rfl,
   (time_add_sub sampleTypeLib sampleHeap (some "time") (some "duration") 4 5 year2024
     3600000000000 rfl rfl).1,
   (time_add_sub sampleTypeLib sampleHeap (some "time") (some "duration") 4 5 year2024
     3600000000000 rfl rfl).2.1⟩

/-- C29, the defect.  In the `__add` of the time type a number as second
operand is converted: after a timestamp it is taken as a duration in
nanoseconds, after a duration as a time in milliseconds since the epoch, and a
timestamp is returned; only a number as first operand raises the argument
error. -/
theorem time_add_converts_number (lib : TypeLib) (heap : Nat → UserValue)
    (m1 m2 : Option String) (p q : Nat) (t : Time) (d : Int) (x : F64)
    (ht : heap p = .time t) (hd : heap q = .duration d) :
    timeAdd lib heap (.luserdata m1 p) (.lnumber x) = .ret (.time (t.Add x.toInt64)) ∧
    timeAdd lib heap (.luserdata m2 q) (.lnumber x)
      = .ret (.time ((UnixMilli x.toInt64).Add d)) ∧
    timeAdd lib heap (.lnumber x) (.luserdata m1 p) = .panic (.error argError) := by
  refine ⟨?_, ?_, ?_⟩
  · simp [timeAdd, timeAddFormerIsTime, checkAnyTimeLike, checkTime, checkAnyDurationLike,
      addToTime, ht]
  · simp [timeAdd, checkAnyTimeLike, addToTime, hd]
  · simp [timeAdd]

/-- C29 at `year2024` and the number 5: the sum is `year2024` advanced by five
nanoseconds. -/
theorem time_add_converts_number_witness :
    sampleHeap 4 = .time year2024 ∧ sampleHeap 5 = .duration 3600000000000 ∧
    timeAdd sampleTypeLib sampleHeap (.luserdata (some "time") 4) (numberArg 5)
      = .ret (.time (year2024.Add (F64.toInt64 (.finite ((5 : Int) : ℚ))))) ∧
    F64.toInt64 (.finite ((5 : Int) : ℚ)) = 5 :=
  ⟨rfl, rfl,
   (time_add_converts_number sampleTypeLib sampleHeap (some "time") (some "duration") 4 5
     year2024 3600000000000 (.finite ((5 : Int) : ℚ)) rfl rfl).1,
   toInt64_intCast 5 (by norm_num) (by norm_num)⟩

end Hephaestus
